import Mathlib

/-!
AT28C256 EEPROM burner: the host-side protocol engine.

A shallow embedding of `src/src/eeprom_burner.c` and theorems about it.

Conventions of the embedding.

* `uint8_t` values are natural numbers below 256; a store into a `uint8_t`
  that can exceed the range is written with an explicit `% 256`.
* `char` values are `Char`; `int` values are `Int`, with C's truncating
  `/` and `%` written `Int.tdiv` and `Int.tmod`.
* The arrays `buf[BUFFER_SIZE]` and `ascii_buf[BUFFER_SIZE * 2]` are lists that
  are updated in place with `List.set`; they start with arbitrary contents.
* The serial line and the data file are outside the program.  What they
  deliver is a script given to the session loops; what the program does to
  them is recorded, oldest first, in a log of `Event`s.
* `printf`, `fflush`, `sleep` and `close` exchange no data with the device or
  the file and are left out.
-/

namespace EepromBurner

/-! ## Constants -/

/-- The macro `CHIP_SIZE` (line 10). -/
def CHIP_SIZE : Nat := 0x8000

/-- The macro `BUFFER_SIZE` (line 11). -/
def BUFFER_SIZE : Nat := 64

/-- The macro `FILENAME` (line 12). -/
def FILENAME : String := "file.bin"

/-- The type `enum Command` (lines 14-19). -/
inductive Command where
  | READ
  | WRITE
  | ERASE
  | UNLOCK
  deriving DecidableEq, Repr

/-! ## Hex codec (lines 30-91) -/

/-- The function `nibble_to_ascii` (lines 30-50). -/
def nibble_to_ascii (val : Nat) : Char :=
  match val with
  | 0x0 => '0'
  | 0x1 => '1'
  | 0x2 => '2'
  | 0x3 => '3'
  | 0x4 => '4'
  | 0x5 => '5'
  | 0x6 => '6'
  | 0x7 => '7'
  | 0x8 => '8'
  | 0x9 => '9'
  | 0xA => 'A'
  | 0xB => 'B'
  | 0xC => 'C'
  | 0xD => 'D'
  | 0xE => 'E'
  | 0xF => 'F'
  | _ => '0'

/-- The function `ascii_to_nibble` (lines 52-72). -/
def ascii_to_nibble (digit : Char) : Nat :=
  match digit with
  | '0' => 0
  | '1' => 1
  | '2' => 2
  | '3' => 3
  | '4' => 4
  | '5' => 5
  | '6' => 6
  | '7' => 7
  | '8' => 8
  | '9' => 9
  | 'A' => 10
  | 'B' => 11
  | 'C' => 12
  | 'D' => 13
  | 'E' => 14
  | 'F' => 15
  | _ => 0

/-- Body of the `for` loop of `fill_ascii_buffer` (lines 77-78) at index `i`. -/
def fill_ascii_step (source : List Nat) (dest : List Char) (i : Nat) : List Char :=
  let dest := dest.set (i * 2) (nibble_to_ascii (source.getD i 0 >>> 4))
  dest.set (i * 2 + 1) (nibble_to_ascii (source.getD i 0 &&& 0xF))

/-- The function `fill_ascii_buffer` (lines 75-80): the contents of `dest`
after the call.  The loop runs for `i = 0, ..., bin_count - 1`, and not at
all when `bin_count` is not positive. -/
def fill_ascii_buffer (source : List Nat) (dest : List Char) (bin_count : Int) : List Char :=
  (List.range bin_count.toNat).foldl (fill_ascii_step source) dest

/-- Body of the `for` loop of `fill_bin_buffer` (lines 85-89) at index `i`. -/
def fill_bin_step (source : List Char) (dest : List Nat) (i : Nat) : List Nat :=
  if i % 2 = 0 then
    dest.set (i / 2) ((ascii_to_nibble (source.getD i (Char.ofNat 0)) <<< 4) % 256)
  else
    dest.set (i / 2) ((dest.getD (i / 2) 0 + ascii_to_nibble (source.getD i (Char.ofNat 0))) % 256)

/-- The function `fill_bin_buffer` (lines 83-91): the contents of `dest`
after the call.  The loop runs for `i = 0, ..., ascii_count - 1`, and not at
all when `ascii_count` is not positive. -/
def fill_bin_buffer (source : List Char) (dest : List Nat) (ascii_count : Int) : List Nat :=
  (List.range ascii_count.toNat).foldl (fill_bin_step source) dest

/-! ## The outside world -/

/-- One interaction of the program with the serial line or the data file. -/
inductive Event where
  /-- The call `read(com, ascii_buf, BUFFER_SIZE*2)` of line 196 returned `recvd`. -/
  | com_read (recvd : Int)
  /-- The call `read(com, &recvd_addr, 2)` of line 235 stored `recvd_addr`. -/
  | com_read_addr (recvd_addr : Nat)
  /-- The call `write(com, data, count)` inside `send` (line 94), with the
  `count` characters handed to it and the value it returned. -/
  | com_write (data : List Char) (sent : Int)
  /-- The call `write(file, buf, n)` of line 204 with the `n` bytes handed to it. -/
  | file_write (data : List Nat)
  /-- The call `lseek(file, addr, SEEK_SET)` of line 245. -/
  | file_seek (addr : Int)
  /-- The call `read(file, buf, BUFFER_SIZE)` of line 246 and the bytes it delivered. -/
  | file_read (data : List Nat)
  /-- The call `open(name, ...)` of the data file (lines 182 and 222) and whether
  it returned a descriptor (`true`) or a negative value (`false`). -/
  | file_open (name : String) (opened : Bool)
  deriving DecidableEq, Repr

/-- The local variables of `main` that the session loops use (lines 168-170),
together with the log of the interactions performed so far. -/
structure Session where
  addr : Int
  buf : List Nat
  ascii_buf : List Char
  log : List Event
  deriving DecidableEq, Repr

/-- How a session loop ends. -/
inductive Outcome where
  /-- The loop condition failed and control passed to the statement after the loop. -/
  | done (s : Session)
  /-- The program called `exit(code)`. -/
  | exit (code : Nat) (s : Session)
  /-- The script of the outside world is used up: the program waits in `read`. -/
  | blocked (s : Session)
  deriving DecidableEq, Repr

/-- A `read` into a buffer overwrites its first `data.length` cells and leaves the others. -/
def store {α : Type} (data buffer : List α) : List α :=
  data ++ buffer.drop data.length

/-- The function `send` (lines 93-103), given the value `sent` that `write`
returned: `Except.error 1` stands for `exit(1)`. -/
def send (sent : Int) (count : Int) : Except Nat Int :=
  if sent != count then .error 1 else .ok sent

/-- The bytes appended to the output file: the data of the `file_write` events. -/
def sink_bytes : List Event → List Nat
  | [] => []
  | .file_write data :: rest => data ++ sink_bytes rest
  | _ :: rest => sink_bytes rest

/-- The frames handed to the serial line: the data of the `com_write` events. -/
def frames_sent : List Event → List (List Char)
  | [] => []
  | .com_write data _ :: rest => data :: frames_sent rest
  | _ :: rest => frames_sent rest

/-- The offsets the data file was positioned at: the `file_seek` events. -/
def seeks : List Event → List Int
  | [] => []
  | .file_seek addr :: rest => addr :: seeks rest
  | _ :: rest => seeks rest

/-! ## Read session (lines 194-210) -/

/-- What one call `read(com, ascii_buf, BUFFER_SIZE*2)` delivers. -/
inductive Receive where
  /-- The call failed and returned `-1`; `ascii_buf` is untouched. -/
  | error
  /-- The call stored these characters (at most the number asked for). -/
  | frame (chars : List Char)
  deriving DecidableEq, Repr

/-- The characters a `read` of at most `count` characters stores. -/
def Receive.chars (r : Receive) (count : Nat) : List Char :=
  match r with
  | .error => []
  | .frame chars => chars.take count

/-- The return value of a `read` of at most `count` characters. -/
def Receive.recvd (r : Receive) (count : Nat) : Int :=
  match r with
  | .error => -1
  | .frame chars => ((chars.take count).length : Int)

/-- One pass through the body of the READ loop (lines 195-209), given what the
`read` of line 196 delivers.  `Except.error` stands for the `exit(1)` of line
201 and carries the session as it is at that point. -/
def read_round (r : Receive) (s : Session) : Except Session Session :=
  let recvd := r.recvd (BUFFER_SIZE * 2)
  let ascii_buf := store (r.chars (BUFFER_SIZE * 2)) s.ascii_buf
  let log := s.log ++ [.com_read recvd]
  if recvd.tmod 2 == 1 then
    .error { s with ascii_buf := ascii_buf, log := log }
  else
    let buf := fill_bin_buffer ascii_buf s.buf recvd
    let log := log ++ [.file_write (buf.take (recvd.tdiv 2).toNat)]
    .ok { addr := s.addr + recvd.tdiv 2, buf := buf, ascii_buf := ascii_buf, log := log }

/-- The loop `while (addr < CHIP_SIZE)` of the READ case (lines 194-210), run
against a script of results of the successive `read(com, ...)` calls. -/
def read_loop (script : List Receive) (s : Session) : Outcome :=
  match script with
  | [] => if s.addr < CHIP_SIZE then .blocked s else .done s
  | r :: rest =>
    if s.addr < CHIP_SIZE then
      match read_round r s with
      | .error s' => .exit 1 s'
      | .ok s' => read_loop rest s'
    else .done s

/-! ## Write session (lines 233-254) -/

/-- What the outside world does in one round of the WRITE loop. -/
structure WriteRound where
  /-- The two bytes delivered by `read(com, &recvd_addr, 2)`, as a `uint16_t`. -/
  recvd_addr : Nat
  /-- The value returned by `write(com, ascii_buf, BUFFER_SIZE * 2)` inside `send`. -/
  sent : Int
  deriving DecidableEq, Repr

/-- The bytes `read(file, buf, count)` delivers when the file is positioned at `pos`. -/
def file_read (file : List Nat) (pos : Nat) (count : Nat) : List Nat :=
  (file.drop pos).take count

/-- One pass through the body of the WRITE loop (lines 234-248), up to and
including the call of `write` inside `send`; the test that `send` makes on the
value returned follows in `write_loop`. -/
def write_round (file : List Nat) (r : WriteRound) (s : Session) : Session :=
  let recvd_addr : Nat := r.recvd_addr % 2 ^ 16
  let addr : Int := recvd_addr
  let chunk := file_read file addr.toNat BUFFER_SIZE
  let buf := store chunk s.buf
  let ascii_buf := fill_ascii_buffer buf s.ascii_buf BUFFER_SIZE
  { addr := addr, buf := buf, ascii_buf := ascii_buf,
    log := s.log ++ [.com_read_addr recvd_addr, .file_seek addr, .file_read chunk,
      .com_write (ascii_buf.take (BUFFER_SIZE * 2)) r.sent] }

/-- The loop `while (addr < CHIP_SIZE)` of the WRITE case (lines 233-254), run
on the input file `file` against a script of rounds. -/
def write_loop (file : List Nat) (script : List WriteRound) (s : Session) : Outcome :=
  match script with
  | [] => if s.addr < CHIP_SIZE then .blocked s else .done s
  | r :: rest =>
    if s.addr < CHIP_SIZE then
      match send r.sent (BUFFER_SIZE * 2 : Nat) with
      | .error code => .exit code (write_round file r s)
      | .ok _ => write_loop file rest (write_round file r s)
    else .done s

/-- A script in which the device supplies the given addresses and the serial
line accepts every frame in full. -/
def device_addresses (addrs : List Nat) : List WriteRound :=
  addrs.map fun a => { recvd_addr := a, sent := (BUFFER_SIZE * 2 : Nat) }

/-! ## Command dispatch (lines 168-260) -/

/-- The session an outcome carries. -/
def Outcome.session : Outcome → Session
  | .done s => s
  | .exit _ s => s
  | .blocked s => s

/-- The lengths of the arrays `buf` and `ascii_buf` as `main` declares them
(lines 168-169), and the range of the `uint8_t` cells of `buf`. -/
def Session.buffers_ok (s : Session) : Prop :=
  s.buf.length = BUFFER_SIZE ∧ s.ascii_buf.length = BUFFER_SIZE * 2 ∧ ∀ x ∈ s.buf, x < 256

/-- What the outside world does during one run of the `switch (cmd)` of `main`. -/
structure World where
  /-- Whether `open` of the data file returns a descriptor. -/
  file_opens : Bool
  /-- The contents of the data file read by the WRITE case. -/
  file : List Nat
  /-- The value returned by `write(com, _, 1)` inside the `send` of the command byte. -/
  cmd_sent : Int
  /-- The results of the `read(com, ...)` calls of the READ loop. -/
  receives : List Receive
  /-- The rounds of the WRITE loop. -/
  rounds : List WriteRound

/-- The function `exit_usage` (lines 25-28): after the usage message, `exit(1)`. -/
def exit_usage (s : Session) : Outcome :=
  .exit 1 s

/-- The `switch (cmd)` of `main` (lines 168-260), from the declarations of the
locals to `return 0`.  `filename` is `none` for `NULL`; `buf` and `ascii_buf`
are the arrays as the stack hands them over.  `Outcome.done` here stands for
reaching `return 0`. -/
def main_switch (cmd : Command) (filename : Option String) (w : World)
    (buf : List Nat) (ascii_buf : List Char) : Outcome :=
  let s : Session := { addr := 0, buf := buf, ascii_buf := ascii_buf, log := [] }
  match cmd with
  | .ERASE => .done s
  | .UNLOCK =>
    let s := { s with log := s.log ++ [.com_write ['U'] w.cmd_sent] }
    match send w.cmd_sent 1 with
    | .error code => .exit code s
    | .ok _ => .done s
  | .READ =>
    let s := { s with log := s.log ++ [.file_open (filename.getD FILENAME) w.file_opens] }
    if w.file_opens then
      let s := { s with log := s.log ++ [.com_write ['R'] w.cmd_sent] }
      match send w.cmd_sent 1 with
      | .error code => .exit code s
      | .ok _ => read_loop w.receives s
    else .exit 1 s
  | .WRITE =>
    match filename with
    | none => exit_usage s
    | some name =>
      let s := { s with log := s.log ++ [.file_open name w.file_opens] }
      if w.file_opens then
        let s := { s with log := s.log ++ [.com_write ['W'] w.cmd_sent] }
        match send w.cmd_sent 1 with
        | .error code => .exit code s
        | .ok _ => write_loop w.file w.rounds s
      else .exit 1 s

/-- The characters handed to the serial line, in order: the data of the
`com_write` events, joined. -/
def host_transcript (log : List Event) : List Char :=
  (frames_sent log).flatten

/-- The session with the events `pre` put before its log: the same run with
`pre` having happened earlier. -/
def Session.prepend (pre : List Event) (s : Session) : Session :=
  { s with log := pre ++ s.log }

/-- The outcome with the events `pre` put before the log of its session. -/
def Outcome.prepend (pre : List Event) : Outcome → Outcome
  | .done s => .done (s.prepend pre)
  | .exit code s => .exit code (s.prepend pre)
  | .blocked s => .blocked (s.prepend pre)

/-- The locals of `main` at the `switch (cmd)` (lines 168-171): `addr = 0`,
the two arrays as the stack hands them over, and nothing logged yet. -/
def initial_session (buf : List Nat) (ascii_buf : List Char) : Session :=
  { addr := 0, buf := buf, ascii_buf := ascii_buf, log := [] }

/-! ## The codec as the specification words it -/

/-- The hex digit of a nibble value: `'0'..'9'` for 0..9, then `'A'..'F'` for 10..15. -/
def hex_digit (v : Nat) : Char :=
  if v < 10 then Char.ofNat ('0'.toNat + v) else Char.ofNat ('A'.toNat + (v - 10))

/-- Whether a character is one of `'0'..'9'` or `'A'..'F'`. -/
def is_hex_digit (c : Char) : Prop :=
  ('0' ≤ c ∧ c ≤ '9') ∨ ('A' ≤ c ∧ c ≤ 'F')

instance (c : Char) : Decidable (is_hex_digit c) := by
  unfold is_hex_digit
  infer_instance

/-- The frame of a chunk: per byte, the digit of the upper nibble then the
digit of the lower nibble. -/
def encode : List Nat → List Char
  | [] => []
  | b :: rest => hex_digit (b / 16) :: hex_digit (b % 16) :: encode rest

/-- The chunk of a frame: per pair of characters, the first is the high
nibble and the second the low nibble of one byte. -/
def decode : List Char → List Nat
  | hi :: lo :: rest => (16 * ascii_to_nibble hi + ascii_to_nibble lo) :: decode rest
  | _ => []

/-! ## Lemmas on the codec -/

theorem shiftRight_four (b : Nat) : b >>> 4 = b / 16 := by
  rw [Nat.shiftRight_eq_div_pow]

theorem land_fifteen (b : Nat) : b &&& 0xF = b % 16 :=
  Nat.and_pow_two_sub_one_eq_mod b 4

theorem shiftLeft_four (v : Nat) : v <<< 4 = 16 * v := by
  rw [Nat.shiftLeft_eq, Nat.mul_comm]

theorem nibble_to_ascii_eq_hex_digit : ∀ v, v < 16 → nibble_to_ascii v = hex_digit v := by
  decide

theorem ascii_to_nibble_hex_digit : ∀ v, v < 16 → ascii_to_nibble (hex_digit v) = v := by
  decide

theorem ascii_to_nibble_le (c : Char) : ascii_to_nibble c ≤ 15 := by
  unfold ascii_to_nibble
  split <;> omega

theorem encode_length (b : List Nat) : (encode b).length = 2 * b.length := by
  induction b with
  | nil => rfl
  | cons x xs ih => simp only [encode, List.length_cons, ih]; omega

theorem encode_append (xs ys : List Nat) : encode (xs ++ ys) = encode xs ++ encode ys := by
  induction xs with
  | nil => rfl
  | cons x xs ih =>
    rw [List.cons_append]
    simp only [encode]
    rw [ih]
    rfl

theorem decode_append (n : Nat) : ∀ (xs ys : List Char), xs.length = 2 * n →
    decode (xs ++ ys) = decode xs ++ decode ys := by
  induction n with
  | zero =>
    intro xs ys h
    have : xs = [] := List.length_eq_zero.mp (by omega)
    subst this
    simp [decode]
  | succ n ih =>
    intro xs ys h
    match xs, h with
    | hi :: lo :: rest, h =>
      have hrest : rest.length = 2 * n := by
        simp only [List.length_cons] at h; omega
      rw [List.cons_append, List.cons_append]
      simp only [decode]
      rw [ih rest ys hrest]
      rfl

theorem decode_length (n : Nat) : ∀ (xs : List Char), xs.length = 2 * n → (decode xs).length = n := by
  induction n with
  | zero =>
    intro xs h
    have : xs = [] := List.length_eq_zero.mp (by omega)
    subst this
    rfl
  | succ n ih =>
    intro xs h
    match xs, h with
    | hi :: lo :: rest, h =>
      have hrest : rest.length = 2 * n := by
        simp only [List.length_cons] at h; omega
      simp only [decode, List.length_cons, ih rest hrest]

theorem decode_encode (b : List Nat) (hb : ∀ x ∈ b, x < 256) : decode (encode b) = b := by
  induction b with
  | nil => rfl
  | cons x xs ih =>
    have hx : x < 256 := hb x (List.mem_cons_self x xs)
    have hxs : ∀ y ∈ xs, y < 256 := fun y hy => hb y (List.mem_cons_of_mem x hy)
    simp only [encode, decode, ih hxs]
    rw [ascii_to_nibble_hex_digit (x / 16) (by omega),
      ascii_to_nibble_hex_digit (x % 16) (by omega)]
    congr 1
    omega

theorem set_two_after {α : Type} (pre : List α) (n : Nat) (hpre : pre.length = n) (a b x y : α) (rest : List α) :
    ((pre ++ a :: b :: rest).set n x).set (n + 1) y = pre ++ x :: y :: rest := by
  subst hpre
  rw [List.set_append, if_neg (by omega), Nat.sub_self, List.set_cons_zero,
    List.set_append, if_neg (by omega)]
  have : pre.length + 1 - pre.length = 1 := by omega
  rw [this]
  rfl

theorem getD_eq_of_lt {α : Type} (l : List α) (i : Nat) (d : α) (h : i < l.length) :
    l.getD i d = l[i] := by
  simp [List.getD, List.getElem?_eq_getElem h]

theorem foldl_fill_ascii_step (source : List Nat) (dest : List Char)
    (hsrc : ∀ x ∈ source, x < 256) :
    ∀ n, n ≤ source.length → 2 * n ≤ dest.length →
      (List.range n).foldl (fill_ascii_step source) dest
        = encode (source.take n) ++ dest.drop (2 * n) := by
  intro n
  induction n with
  | zero => intro _ _; simp [encode]
  | succ n ih =>
    intro hn hd
    have h1 : 2 * n < dest.length := by omega
    have h2 : 2 * n + 1 < dest.length := by omega
    have h3 : n < source.length := by omega
    have hlt : source[n] < 256 := hsrc _ (List.getElem_mem h3)
    rw [List.range_succ, List.foldl_append, ih (by omega) (by omega), List.foldl_cons,
      List.foldl_nil, List.drop_eq_getElem_cons h1, List.drop_eq_getElem_cons h2]
    unfold fill_ascii_step
    rw [getD_eq_of_lt source n 0 h3, shiftRight_four, land_fifteen,
      nibble_to_ascii_eq_hex_digit _ (by omega), nibble_to_ascii_eq_hex_digit _ (by omega)]
    have hlen : (encode (source.take n)).length = n * 2 := by
      rw [encode_length, List.length_take]; omega
    rw [set_two_after _ (n * 2) hlen]
    have htake : source.take (n + 1) = source.take n ++ [source[n]] := by
      rw [List.take_succ, List.getElem?_eq_getElem h3]; rfl
    rw [htake, encode_append]
    have hd2 : 2 * n + 1 + 1 = 2 * (n + 1) := by omega
    simp only [encode, List.append_assoc, List.cons_append, List.nil_append, hd2]

theorem fill_ascii_buffer_eq (source : List Nat) (dest : List Char) (n : Nat)
    (hsrc : ∀ x ∈ source, x < 256) (hn : n ≤ source.length) (hd : 2 * n ≤ dest.length) :
    fill_ascii_buffer source dest n = encode (source.take n) ++ dest.drop (2 * n) := by
  unfold fill_ascii_buffer
  rw [Int.toNat_ofNat]
  exact foldl_fill_ascii_step source dest hsrc n hn hd

theorem foldl_fill_bin_step (source : List Char) (dest : List Nat) :
    ∀ n, 2 * n ≤ source.length → n ≤ dest.length →
      (List.range (2 * n)).foldl (fill_bin_step source) dest
        = decode (source.take (2 * n)) ++ dest.drop n := by
  intro n
  induction n with
  | zero => intro _ _; simp [decode]
  | succ n ih =>
    intro hn hd
    have h1 : 2 * n < source.length := by omega
    have h2 : 2 * n + 1 < source.length := by omega
    have h3 : n < dest.length := by omega
    have hr : 2 * (n + 1) = (2 * n + 1) + 1 := by omega
    have hlen : (decode (source.take (2 * n))).length = n :=
      decode_length n _ (by rw [List.length_take]; omega)
    have hhi := ascii_to_nibble_le source[2 * n]
    have hlo := ascii_to_nibble_le source[2 * n + 1]
    rw [hr, List.range_succ, List.range_succ, List.foldl_append, List.foldl_append,
      ih (by omega) (by omega), List.foldl_cons, List.foldl_nil, List.foldl_cons, List.foldl_nil,
      List.drop_eq_getElem_cons h3]
    have hstep1 : fill_bin_step source (decode (source.take (2 * n)) ++ dest[n] :: dest.drop (n + 1)) (2 * n)
        = decode (source.take (2 * n)) ++ (16 * ascii_to_nibble source[2 * n]) :: dest.drop (n + 1) := by
      unfold fill_bin_step
      rw [if_pos (by omega), getD_eq_of_lt source _ _ h1, shiftLeft_four,
        Nat.mul_div_cancel_left n (by omega : 0 < 2), List.set_append, if_neg (by omega), hlen,
        Nat.sub_self, List.set_cons_zero, Nat.mod_eq_of_lt (by omega)]
    have hstep2 : fill_bin_step source
          (decode (source.take (2 * n)) ++ (16 * ascii_to_nibble source[2 * n]) :: dest.drop (n + 1))
          (2 * n + 1)
        = decode (source.take (2 * n))
            ++ (16 * ascii_to_nibble source[2 * n] + ascii_to_nibble source[2 * n + 1])
              :: dest.drop (n + 1) := by
      unfold fill_bin_step
      have hdiv : (2 * n + 1) / 2 = n := by omega
      rw [if_neg (by omega), getD_eq_of_lt source _ _ h2, hdiv, List.set_append,
        if_neg (by omega), hlen, Nat.sub_self, List.set_cons_zero]
      have hg : (decode (source.take (2 * n)) ++ (16 * ascii_to_nibble source[2 * n]) :: dest.drop (n + 1)).getD n 0
          = 16 * ascii_to_nibble source[2 * n] := by
        rw [List.getD_eq_getElem?_getD, List.getElem?_append_right (by omega), hlen, Nat.sub_self,
          List.getElem?_cons_zero, Option.getD_some]
      rw [hg, Nat.mod_eq_of_lt (by omega)]
    rw [hstep1, hstep2]
    have htake : source.take (2 * n + 1 + 1)
        = source.take (2 * n) ++ [source[2 * n], source[2 * n + 1]] := by
      rw [List.take_succ, List.take_succ, List.getElem?_eq_getElem h1,
        List.getElem?_eq_getElem h2, List.append_assoc]
      rfl
    rw [htake, decode_append n _ _ (by rw [List.length_take]; omega)]
    simp [decode]

theorem fill_bin_buffer_eq (source : List Char) (dest : List Nat) (n : Nat)
    (hn : 2 * n ≤ source.length) (hd : n ≤ dest.length) :
    fill_bin_buffer source dest (2 * n : Nat) = decode (source.take (2 * n)) ++ dest.drop n := by
  unfold fill_bin_buffer
  rw [Int.toNat_ofNat]
  exact foldl_fill_bin_step source dest n hn hd

theorem encode_getElem? (xs : List Nat) : ∀ i, i < xs.length →
    (encode xs)[2 * i]? = some (hex_digit (xs.getD i 0 / 16)) ∧
    (encode xs)[2 * i + 1]? = some (hex_digit (xs.getD i 0 % 16)) := by
  induction xs with
  | nil => intro i h; simp at h
  | cons x xs ih =>
    intro i h
    cases i with
    | zero => simp [encode]
    | succ i =>
      have hi : i < xs.length := by simpa using h
      have e1 : 2 * (i + 1) = (2 * i + 1) + 1 := by omega
      have e2 : 2 * (i + 1) + 1 = ((2 * i + 1) + 1) + 1 := by omega
      rw [e1]
      simp only [encode, List.getElem?_cons_succ, List.getD_cons_succ]
      exact ih i hi

theorem decode_getElem? (n : Nat) : ∀ (xs : List Char), xs.length = 2 * n → ∀ i, i < n →
    (decode xs)[i]? = some (16 * ascii_to_nibble (xs.getD (2 * i) (Char.ofNat 0))
      + ascii_to_nibble (xs.getD (2 * i + 1) (Char.ofNat 0))) := by
  induction n with
  | zero => intro xs _ i h; omega
  | succ n ih =>
    intro xs h i hi
    match xs, h with
    | a :: b :: rest, h =>
      have hrest : rest.length = 2 * n := by
        simp only [List.length_cons] at h; omega
      cases i with
      | zero => simp [decode]
      | succ i =>
        have e1 : 2 * (i + 1) = (2 * i + 1) + 1 := by omega
        rw [e1]
        simp only [decode, List.getElem?_cons_succ, List.getD_cons_succ]
        exact ih rest hrest i (by omega)

/-! ## Claims on the hex codec -/

/-- C1 (round trip): for every byte array `b` of length 1..64, encoding `b`
into the frame buffer with `fill_ascii_buffer` over `len(b)` bytes and then
decoding the buffer with `fill_bin_buffer` over `2 * len(b)` characters leaves
exactly `b` in the first `len(b)` cells of the chunk buffer, whatever the two
buffers held before. -/
theorem decode_encode_round_trip (b : List Nat) (buf : List Nat) (ascii_buf : List Char)
    (hb : ∀ x ∈ b, x < 256) (hlen : 1 ≤ b.length ∧ b.length ≤ BUFFER_SIZE)
    (hbuf : buf.length = BUFFER_SIZE) (hascii : ascii_buf.length = BUFFER_SIZE * 2) :
    (fill_bin_buffer (fill_ascii_buffer b ascii_buf (b.length : Nat)) buf
      (2 * b.length : Nat)).take b.length = b := by
  have hcap : 2 * b.length ≤ ascii_buf.length := by rw [hascii]; omega
  have hcap2 : b.length ≤ buf.length := by rw [hbuf]; exact hlen.2
  rw [fill_ascii_buffer_eq b ascii_buf b.length hb (Nat.le_refl _) hcap, List.take_length]
  have hsrc : 2 * b.length ≤ (encode b ++ ascii_buf.drop (2 * b.length)).length := by
    rw [List.length_append, encode_length]; omega
  rw [fill_bin_buffer_eq _ buf b.length hsrc hcap2,
    List.take_left' (encode_length b), decode_encode b hb]
  exact List.take_left' rfl

/-- Witness of C1 at the chunk `[0x00, 0xFF, 0x1A]`. -/
theorem decode_encode_round_trip_witness :
    (fill_bin_buffer (fill_ascii_buffer [0x00, 0xFF, 0x1A] (List.replicate 128 'x')
      (([0x00, 0xFF, 0x1A] : List Nat).length : Nat)) (List.replicate 64 0)
      (2 * ([0x00, 0xFF, 0x1A] : List Nat).length : Nat)).take
        ([0x00, 0xFF, 0x1A] : List Nat).length = [0x00, 0xFF, 0x1A] :=
  decode_encode_round_trip [0x00, 0xFF, 0x1A] (List.replicate 64 0) (List.replicate 128 'x')
    (by decide) (by decide) (List.length_replicate 64 0) (List.length_replicate 128 'x')

/-- C2 (encode): for every chunk `source` of `n` bytes, `fill_ascii_buffer`
produces exactly `2 * n` characters (it fills cells `0 .. 2*n-1` of `dest` and
leaves the others as they were), character `2*i` is the digit of the upper
nibble `source[i] >> 4` and character `2*i+1` the digit of the lower nibble
`source[i] & 0xF`, with digits `'0'..'9'` then `'A'..'F'`; and the chunk
`[0x00, 0xFF, 0x1A]` gives `"00FF1A"`. -/
theorem fill_ascii_buffer_two_digits (source : List Nat) (dest : List Char)
    (hsrc : ∀ x ∈ source, x < 256) (hdest : 2 * source.length ≤ dest.length) :
    (fill_ascii_buffer source dest (source.length : Nat)).length = dest.length ∧
    ((fill_ascii_buffer source dest (source.length : Nat)).take (2 * source.length)).length
      = 2 * source.length ∧
    (fill_ascii_buffer source dest (source.length : Nat)).drop (2 * source.length)
      = dest.drop (2 * source.length) ∧
    (∀ i, i < source.length →
      (fill_ascii_buffer source dest (source.length : Nat))[2 * i]?
        = some (hex_digit (source.getD i 0 >>> 4)) ∧
      (fill_ascii_buffer source dest (source.length : Nat))[2 * i + 1]?
        = some (hex_digit (source.getD i 0 &&& 0xF))) ∧
    (∀ d : List Char, 6 ≤ d.length →
      (fill_ascii_buffer [0x00, 0xFF, 0x1A] d 3).take 6 = ['0', '0', 'F', 'F', '1', 'A']) := by
  rw [fill_ascii_buffer_eq source dest source.length hsrc (Nat.le_refl _) hdest, List.take_length]
  refine ⟨?_, ?_, ?_, ?_, ?_⟩
  · rw [List.length_append, encode_length, List.length_drop]; omega
  · rw [List.take_left' (encode_length source), encode_length]
  · exact List.drop_left' (encode_length source)
  · intro i hi
    have h := encode_getElem? source i hi
    rw [shiftRight_four, land_fifteen,
      List.getElem?_append_left (by rw [encode_length]; omega),
      List.getElem?_append_left (by rw [encode_length]; omega)]
    exact h
  · intro d hd
    have h := fill_ascii_buffer_eq [0x00, 0xFF, 0x1A] d 3 (by decide) (by decide) (by omega)
    have e : ((3 : Nat) : Int) = 3 := rfl
    rw [e] at h
    rw [h]
    rfl

/-- Witness of C2 at the chunk `[0x00, 0xFF, 0x1A]` and an eight-cell buffer. -/
theorem fill_ascii_buffer_two_digits_witness :
    (fill_ascii_buffer [0x00, 0xFF, 0x1A] (List.replicate 8 'x') 3)[2 * 2 + 1]? = some 'A' :=
  ((fill_ascii_buffer_two_digits [0x00, 0xFF, 0x1A] (List.replicate 8 'x')
    (by decide) (by decide)).2.2.2.1 2 (by decide)).2

/-- C3 (decode): for every even-length frame `f` of `2 * n` characters,
`fill_bin_buffer` produces exactly `n` bytes (it fills cells `0 .. n-1` of
`dest` and leaves the others as they were), and byte `i` is
`16 * nibble(f[2*i]) + nibble(f[2*i+1])`, with no reduction modulo 256; and
the frame `"00FF1A"` gives `[0x00, 0xFF, 0x1A]`. -/
theorem fill_bin_buffer_pairs (f : List Char) (dest : List Nat) (n : Nat)
    (hf : f.length = 2 * n) (hdest : n ≤ dest.length) :
    (fill_bin_buffer f dest (2 * n : Nat)).length = dest.length ∧
    ((fill_bin_buffer f dest (2 * n : Nat)).take n).length = n ∧
    (fill_bin_buffer f dest (2 * n : Nat)).drop n = dest.drop n ∧
    (∀ i, i < n →
      (fill_bin_buffer f dest (2 * n : Nat))[i]?
        = some (16 * ascii_to_nibble (f.getD (2 * i) (Char.ofNat 0))
            + ascii_to_nibble (f.getD (2 * i + 1) (Char.ofNat 0)))) ∧
    (∀ d : List Nat, 3 ≤ d.length →
      (fill_bin_buffer ['0', '0', 'F', 'F', '1', 'A'] d 6).take 3 = [0x00, 0xFF, 0x1A]) := by
  have hfull : f.take (2 * n) = f := by rw [← hf, List.take_length]
  have hlen : (decode f).length = n := decode_length n f hf
  rw [fill_bin_buffer_eq f dest n (by omega) hdest, hfull]
  refine ⟨?_, ?_, ?_, ?_, ?_⟩
  · rw [List.length_append, hlen, List.length_drop]; omega
  · rw [List.take_left' hlen, hlen]
  · exact List.drop_left' hlen
  · intro i hi
    rw [List.getElem?_append_left (by omega)]
    exact decode_getElem? n f hf i hi
  · intro d hd
    have h := fill_bin_buffer_eq ['0', '0', 'F', 'F', '1', 'A'] d 3 (by decide) (by omega)
    have e : ((2 * 3 : Nat) : Int) = 6 := rfl
    rw [e] at h
    rw [h]
    rfl

/-- Witness of C3 at the frame `"00FF1A"` and a four-cell buffer. -/
theorem fill_bin_buffer_pairs_witness :
    (fill_bin_buffer ['0', '0', 'F', 'F', '1', 'A'] [7, 7, 7, 7] (2 * 3 : Nat))[1]? = some 255 :=
  (fill_bin_buffer_pairs ['0', '0', 'F', 'F', '1', 'A'] [7, 7, 7, 7] 3 (by decide)
    (by decide)).2.2.2.1 1 (by decide)

/-- C4 (permissive decode): a character `c` that is not one of `'0'..'9'`,
`'A'..'F'` has nibble value 0; decoding a frame that holds it signals nothing
and stores the byte built from that 0 (the frame `'0' c` gives the single
byte `0x00`); in particular `"0G"` and the lowercase `"0f"` give `0x00`. -/
theorem ascii_to_nibble_permissive (c : Char) (hc : ¬ is_hex_digit c) :
    ascii_to_nibble c = 0 ∧
    (∀ d : List Nat, 1 ≤ d.length → (fill_bin_buffer ['0', c] d 2).take 1 = [0x00]) ∧
    (∀ d : List Nat, 1 ≤ d.length → (fill_bin_buffer ['0', 'G'] d 2).take 1 = [0x00]) ∧
    (∀ d : List Nat, 1 ≤ d.length → (fill_bin_buffer ['0', 'f'] d 2).take 1 = [0x00]) := by
  have h0 : ascii_to_nibble c = 0 := by
    unfold is_hex_digit at hc
    unfold ascii_to_nibble
    split <;> first | rfl | exact absurd (by decide) hc
  have key : ∀ (x : Char) (d : List Nat), ascii_to_nibble x = 0 → 1 ≤ d.length →
      (fill_bin_buffer ['0', x] d 2).take 1 = [0x00] := by
    intro x d hx hd
    have h := fill_bin_buffer_eq ['0', x] d 1 (by simp) hd
    have e : ((2 * 1 : Nat) : Int) = 2 := rfl
    rw [e] at h
    rw [h]
    have h00 : ascii_to_nibble '0' = 0 := rfl
    simp [decode, hx, h00]
  exact ⟨h0, fun d hd => key c d h0 hd, fun d hd => key 'G' d rfl hd,
    fun d hd => key 'f' d rfl hd⟩

/-- Witness of C4 at the character `'g'`. -/
theorem ascii_to_nibble_permissive_witness : ascii_to_nibble 'g' = 0 :=
  (ascii_to_nibble_permissive 'g' (by decide)).1

/-! ## Lemmas on the read session -/

theorem sink_bytes_append (l₁ l₂ : List Event) :
    sink_bytes (l₁ ++ l₂) = sink_bytes l₁ ++ sink_bytes l₂ := by
  induction l₁ with
  | nil => rfl
  | cons e l ih =>
    cases e <;> simp [sink_bytes, ih]

theorem foldl_fill_bin_step_length (source : List Char) (is : List Nat) :
    ∀ dest : List Nat, (is.foldl (fill_bin_step source) dest).length = dest.length := by
  induction is with
  | nil => intro dest; rfl
  | cons i is ih =>
    intro dest
    rw [List.foldl_cons, ih]
    unfold fill_bin_step
    split <;> exact List.length_set _ _ _

theorem fill_bin_buffer_length (source : List Char) (dest : List Nat) (count : Int) :
    (fill_bin_buffer source dest count).length = dest.length :=
  foldl_fill_bin_step_length source _ dest

theorem read_loop_of_ge (script : List Receive) (s : Session) (h : ¬ s.addr < CHIP_SIZE) :
    read_loop script s = .done s := by
  cases script <;> simp [read_loop, h]

theorem read_loop_cons_ok (r : Receive) (rest : List Receive) (s s' : Session)
    (h : s.addr < CHIP_SIZE) (hr : read_round r s = .ok s') :
    read_loop (r :: rest) s = read_loop rest s' := by
  simp [read_loop, h, hr]

theorem read_loop_cons_error (r : Receive) (rest : List Receive) (s s' : Session)
    (h : s.addr < CHIP_SIZE) (hr : read_round r s = .error s') :
    read_loop (r :: rest) s = .exit 1 s' := by
  simp [read_loop, h, hr]

theorem read_loop_blocked_addr : ∀ (script : List Receive) (s s' : Session),
    read_loop script s = .blocked s' → s'.addr < CHIP_SIZE := by
  intro script
  induction script with
  | nil =>
    intro s s' h
    by_cases hs : s.addr < CHIP_SIZE
    · simp [read_loop, hs] at h
      rw [← h]; exact hs
    · simp [read_loop, hs] at h
  | cons r rest ih =>
    intro s s' h
    by_cases hs : s.addr < CHIP_SIZE
    · cases hr : read_round r s with
      | error e => rw [read_loop_cons_error r rest s e hs hr] at h; cases h
      | ok t => rw [read_loop_cons_ok r rest s t hs hr] at h; exact ih t s' h
    · rw [read_loop_of_ge _ s hs] at h; cases h

theorem read_loop_append_of_blocked : ∀ (pre more : List Receive) (s s' : Session),
    read_loop pre s = .blocked s' → read_loop (pre ++ more) s = read_loop more s' := by
  intro pre
  induction pre with
  | nil =>
    intro more s s' h
    by_cases hs : s.addr < CHIP_SIZE
    · simp [read_loop, hs] at h
      rw [← h]; rfl
    · simp [read_loop, hs] at h
  | cons r rest ih =>
    intro more s s' h
    by_cases hs : s.addr < CHIP_SIZE
    · cases hr : read_round r s with
      | error e => rw [read_loop_cons_error r rest s e hs hr] at h; cases h
      | ok t =>
        rw [read_loop_cons_ok r rest s t hs hr] at h
        rw [List.cons_append, read_loop_cons_ok r (rest ++ more) s t hs hr]
        exact ih more t s' h
    · rw [read_loop_of_ge _ s hs] at h; cases h

theorem recvd_frame (f : List Char) (h : f.length ≤ BUFFER_SIZE * 2) :
    (Receive.frame f).recvd (BUFFER_SIZE * 2) = (f.length : Int) := by
  simp only [Receive.recvd, List.length_take]
  rw [Nat.min_eq_right h]

theorem chars_frame (f : List Char) (h : f.length ≤ BUFFER_SIZE * 2) :
    (Receive.frame f).chars (BUFFER_SIZE * 2) = f := by
  simp only [Receive.chars]
  exact List.take_of_length_le h

/-- The round of an even-length frame: it is decoded, half its length is
written and added to `addr`. -/
theorem read_round_even (f : List Char) (s : Session)
    (hle : f.length ≤ BUFFER_SIZE * 2) (heven : f.length % 2 = 0) :
    read_round (.frame f) s = .ok
      { addr := s.addr + (f.length / 2 : Nat),
        buf := fill_bin_buffer (store f s.ascii_buf) s.buf (f.length : Nat),
        ascii_buf := store f s.ascii_buf,
        log := s.log ++ [.com_read (f.length : Nat),
          .file_write ((fill_bin_buffer (store f s.ascii_buf) s.buf (f.length : Nat)).take
            (f.length / 2))] } := by
  have hmod : ¬ ((f.length : Int).tmod 2 = 1) := by
    have : (f.length : Int).tmod 2 = ((f.length % 2 : Nat) : Int) := by
      rw [Int.tmod_eq_emod (by omega) (by omega)]; rfl
    rw [this, heven]; decide
  have hdiv : (f.length : Int).tdiv 2 = ((f.length / 2 : Nat) : Int) := by
    rw [Int.tdiv_eq_ediv (by omega) (by omega)]; rfl
  simp only [read_round, recvd_frame f hle, chars_frame f hle, beq_iff_eq, hmod, if_false,
    hdiv, Int.toNat_ofNat, List.append_assoc, List.singleton_append]

/-- The round of an odd-length frame: `exit(1)` right after the `read`. -/
theorem read_round_odd (f : List Char) (s : Session)
    (hle : f.length ≤ BUFFER_SIZE * 2) (hodd : f.length % 2 = 1) :
    read_round (.frame f) s = .error
      { s with ascii_buf := store f s.ascii_buf,
               log := s.log ++ [.com_read (f.length : Nat)] } := by
  have hmod : (f.length : Int).tmod 2 = 1 := by
    have : (f.length : Int).tmod 2 = ((f.length % 2 : Nat) : Int) := by
      rw [Int.tmod_eq_emod (by omega) (by omega)]; rfl
    rw [this, hodd]; rfl
  simp only [read_round, recvd_frame f hle, chars_frame f hle, beq_iff_eq, hmod, if_true]

theorem read_round_even_effect (f : List Char) (s : Session)
    (hle : f.length ≤ BUFFER_SIZE * 2) (heven : f.length % 2 = 0)
    (hbuf : s.buf.length = BUFFER_SIZE) :
    ∃ s₁, read_round (.frame f) s = .ok s₁ ∧ s₁.addr = s.addr + (f.length / 2 : Nat) ∧
      s₁.buf.length = BUFFER_SIZE ∧
      (sink_bytes s₁.log).length = (sink_bytes s.log).length + f.length / 2 := by
  refine ⟨_, read_round_even f s hle heven, rfl, ?_, ?_⟩
  · simp only [fill_bin_buffer_length]; exact hbuf
  · have hcap : f.length / 2 ≤ BUFFER_SIZE := by
      have hB : BUFFER_SIZE = 64 := rfl
      omega
    simp only [sink_bytes_append, sink_bytes, List.length_append, List.length_take,
      fill_bin_buffer_length, hbuf, List.append_nil, List.length_nil, Nat.min_eq_left hcap,
      List.nil_append]

theorem read_loop_exact_sum : ∀ (frames : List (List Char)) (s : Session),
    (∀ f ∈ frames, f.length ≤ BUFFER_SIZE * 2 ∧ f.length % 2 = 0) →
    2 * s.addr + ((frames.map List.length).sum : Nat) = (CHIP_SIZE * 2 : Nat) →
    s.buf.length = BUFFER_SIZE →
    ∃ s', read_loop (frames.map Receive.frame) s = .done s' ∧ s'.addr = CHIP_SIZE ∧
      ((sink_bytes s'.log).length : Int) + s.addr = (sink_bytes s.log).length + CHIP_SIZE := by
  intro frames
  induction frames with
  | nil =>
    intro s _ hsum _
    have haddr : s.addr = CHIP_SIZE := by
      simp only [List.map_nil, List.sum_nil] at hsum
      push_cast at hsum
      omega
    refine ⟨s, ?_, haddr, ?_⟩
    · exact read_loop_of_ge _ s (by omega)
    · rw [haddr]
  | cons f fs ih =>
    intro s hfs hsum hbuf
    have hf := hfs f (List.mem_cons_self f fs)
    have hrest : ∀ g ∈ fs, g.length ≤ BUFFER_SIZE * 2 ∧ g.length % 2 = 0 :=
      fun g hg => hfs g (List.mem_cons_of_mem f hg)
    simp only [List.map_cons, List.sum_cons] at hsum
    push_cast at hsum
    by_cases hs : s.addr < CHIP_SIZE
    · obtain ⟨s₁, hround, h₁addr, h₁buf, h₁sink⟩ := read_round_even_effect f s hf.1 hf.2 hbuf
      rw [List.map_cons, read_loop_cons_ok _ _ s s₁ hs hround]
      have hhalf : 2 * (f.length / 2) = f.length := by omega
      obtain ⟨s', hrun, haddr, hsink⟩ := ih s₁ hrest
        (by rw [h₁addr]; push_cast; omega) h₁buf
      refine ⟨s', hrun, haddr, ?_⟩
      rw [h₁addr, h₁sink] at hsink
      push_cast at hsink
      omega
    · have : s.addr = CHIP_SIZE := by
        have := Int.ofNat_nonneg (fs.map List.length).sum
        push_cast at this
        omega
      exact ⟨s, read_loop_of_ge _ s hs, this, by rw [this]⟩

/-! ## Claims on the read session -/

/-- C5 (read session termination): for every finite sequence of received
frames whose lengths are each in 0..128 and even and sum to exactly
`CHIP_SIZE * 2 = 65536` characters, the READ loop started at offset 0 ends by
its loop condition, the final offset is `CHIP_SIZE = 32768`, and the bytes
written to the sink during the loop number `CHIP_SIZE`. -/
theorem read_loop_terminates_at_chip_size (frames : List (List Char)) (s : Session)
    (hlen : ∀ f ∈ frames, f.length ≤ BUFFER_SIZE * 2 ∧ f.length % 2 = 0)
    (hsum : (frames.map List.length).sum = CHIP_SIZE * 2)
    (haddr : s.addr = 0) (hbuf : s.buf.length = BUFFER_SIZE) :
    ∃ s', read_loop (frames.map Receive.frame) s = .done s' ∧ s'.addr = CHIP_SIZE ∧
      (sink_bytes s'.log).length = (sink_bytes s.log).length + CHIP_SIZE := by
  obtain ⟨s', hrun, hfinal, hsink⟩ := read_loop_exact_sum frames s hlen
    (by rw [haddr, hsum]; simp) hbuf
  refine ⟨s', hrun, hfinal, ?_⟩
  rw [haddr] at hsink
  omega

/-- Witness of C5: 512 full frames of 128 characters. -/
theorem read_loop_terminates_at_chip_size_witness :
    ∃ s', read_loop ((List.replicate 512 (List.replicate 128 'A')).map Receive.frame)
        { addr := 0, buf := List.replicate 64 0, ascii_buf := List.replicate 128 'x', log := [] }
        = .done s' ∧ s'.addr = CHIP_SIZE ∧
      (sink_bytes s'.log).length = (sink_bytes ([] : List Event)).length + CHIP_SIZE :=
  read_loop_terminates_at_chip_size (List.replicate 512 (List.replicate 128 'A'))
    { addr := 0, buf := List.replicate 64 0, ascii_buf := List.replicate 128 'x', log := [] }
    (by
      intro f hf
      rw [List.eq_of_mem_replicate hf]
      exact ⟨by rw [List.length_replicate]; decide, by rw [List.length_replicate]⟩)
    (by
      rw [List.map_replicate, List.sum_replicate, List.length_replicate]
      rfl)
    rfl (List.length_replicate 64 0)

/-- C6 (read session fatal path): when the loop, after any rounds that left it
running in session state `s`, receives a frame of odd length, it ends in that
round with `exit(1)`, whatever the script holds afterwards: the frame is not
decoded (`buf` is as before), nothing is written to the sink, the offset is as
before, and the receive of the odd frame is the last interaction logged. -/
theorem read_loop_odd_frame_fatal (pre : List Receive) (f : List Char) (rest : List Receive)
    (s₀ s : Session) (hpre : read_loop pre s₀ = .blocked s)
    (hle : f.length ≤ BUFFER_SIZE * 2) (hodd : f.length % 2 = 1) :
    ∃ s', read_loop (pre ++ Receive.frame f :: rest) s₀ = .exit 1 s' ∧
      s'.addr = s.addr ∧ s'.buf = s.buf ∧
      s'.log = s.log ++ [.com_read (f.length : Nat)] ∧
      sink_bytes s'.log = sink_bytes s.log := by
  refine ⟨{ s with ascii_buf := store f s.ascii_buf,
                   log := s.log ++ [.com_read (f.length : Nat)] }, ?_, rfl, rfl, rfl, ?_⟩
  · rw [read_loop_append_of_blocked pre _ s₀ s hpre]
    exact read_loop_cons_error _ rest s _ (read_loop_blocked_addr pre s₀ s hpre)
      (read_round_odd f s hle hodd)
  · simp [sink_bytes_append, sink_bytes]

/-- Witness of C6: the frame `"0A"`, then the odd frame `"123"`, then `"44"`. -/
theorem read_loop_odd_frame_fatal_witness :
    ∃ s', read_loop ([Receive.frame ['0', 'A']] ++ Receive.frame ['1', '2', '3']
          :: [Receive.frame ['4', '4']])
        { addr := 0, buf := [0, 0], ascii_buf := ['x', 'x', 'x', 'x'], log := [] }
        = .exit 1 s' ∧
      s'.addr = 1 ∧ s'.buf = [10, 0] ∧
      s'.log = [.com_read 2, .file_write [10]] ++ [.com_read (['1', '2', '3'].length : Nat)] ∧
      sink_bytes s'.log = sink_bytes [.com_read 2, .file_write [10]] :=
  read_loop_odd_frame_fatal [Receive.frame ['0', 'A']] ['1', '2', '3'] [Receive.frame ['4', '4']]
    { addr := 0, buf := [0, 0], ascii_buf := ['x', 'x', 'x', 'x'], log := [] }
    { addr := 1, buf := [10, 0], ascii_buf := ['0', 'A', 'x', 'x'],
      log := [.com_read 2, .file_write [10]] }
    (by decide) (by decide) (by decide)

/-! ## Lemmas on the write session -/

theorem seeks_append (l₁ l₂ : List Event) : seeks (l₁ ++ l₂) = seeks l₁ ++ seeks l₂ := by
  induction l₁ with
  | nil => rfl
  | cons e l ih =>
    cases e <;> simp [seeks, ih]

theorem frames_sent_append (l₁ l₂ : List Event) :
    frames_sent (l₁ ++ l₂) = frames_sent l₁ ++ frames_sent l₂ := by
  induction l₁ with
  | nil => rfl
  | cons e l ih =>
    cases e <;> simp [frames_sent, ih]

theorem store_length {α : Type} (data buffer : List α) (h : data.length ≤ buffer.length) :
    (store data buffer).length = buffer.length := by
  unfold store
  rw [List.length_append, List.length_drop]
  omega

theorem store_full {α : Type} (data buffer : List α) (h : buffer.length ≤ data.length) :
    store data buffer = data := by
  unfold store
  rw [List.drop_of_length_le h, List.append_nil]

theorem mem_store {α : Type} (data buffer : List α) (x : α) (h : x ∈ store data buffer) :
    x ∈ data ∨ x ∈ buffer := by
  unfold store at h
  rcases List.mem_append.mp h with h | h
  · exact Or.inl h
  · exact Or.inr (List.mem_of_mem_drop h)

theorem file_read_length_le (file : List Nat) (pos count : Nat) :
    (file_read file pos count).length ≤ count := by
  unfold file_read
  rw [List.length_take]
  exact Nat.min_le_left _ _

theorem file_read_length (file : List Nat) (pos count : Nat) (h : pos + count ≤ file.length) :
    (file_read file pos count).length = count := by
  unfold file_read
  rw [List.length_take, List.length_drop]
  omega

theorem mem_file_read (file : List Nat) (pos count x : Nat) (h : x ∈ file_read file pos count) :
    x ∈ file := by
  unfold file_read at h
  exact List.mem_of_mem_drop (List.mem_of_mem_take h)

theorem write_round_addr (file : List Nat) (r : WriteRound) (s : Session) :
    (write_round file r s).addr = ((r.recvd_addr % 2 ^ 16 : Nat) : Int) := rfl

theorem write_round_seeks (file : List Nat) (r : WriteRound) (s : Session) :
    seeks (write_round file r s).log = seeks s.log ++ [((r.recvd_addr % 2 ^ 16 : Nat) : Int)] := by
  simp [write_round, seeks_append, seeks]

theorem write_round_frames_length (file : List Nat) (r : WriteRound) (s : Session) :
    (frames_sent (write_round file r s).log).length = (frames_sent s.log).length + 1 := by
  simp [write_round, frames_sent_append, frames_sent]

/-- The round in full, when the buffers have the sizes of `main` and the chunk
buffer holds bytes after the file read. -/
theorem write_round_eq (file : List Nat) (a : Nat) (sent : Int) (s : Session)
    (ha : a < 2 ^ 16) (hbuf : s.buf.length = BUFFER_SIZE)
    (hascii : s.ascii_buf.length = BUFFER_SIZE * 2)
    (hbytes : ∀ x ∈ store (file_read file a BUFFER_SIZE) s.buf, x < 256) :
    write_round file { recvd_addr := a, sent := sent } s =
      { addr := (a : Int),
        buf := store (file_read file a BUFFER_SIZE) s.buf,
        ascii_buf := encode (store (file_read file a BUFFER_SIZE) s.buf),
        log := s.log ++ [.com_read_addr a, .file_seek a,
          .file_read (file_read file a BUFFER_SIZE),
          .com_write (encode (store (file_read file a BUFFER_SIZE) s.buf)) sent] } := by
  have hlen : (store (file_read file a BUFFER_SIZE) s.buf).length = BUFFER_SIZE := by
    rw [store_length _ _ (by rw [hbuf]; exact file_read_length_le file a BUFFER_SIZE), hbuf]
  have hfill : fill_ascii_buffer (store (file_read file a BUFFER_SIZE) s.buf) s.ascii_buf
      (BUFFER_SIZE : Nat) = encode (store (file_read file a BUFFER_SIZE) s.buf) := by
    rw [fill_ascii_buffer_eq _ _ BUFFER_SIZE hbytes (by rw [hlen]) (by rw [hascii]; omega),
      List.take_of_length_le (by rw [hlen]), List.drop_of_length_le (by rw [hascii]; omega),
      List.append_nil]
  have htake : (encode (store (file_read file a BUFFER_SIZE) s.buf)).take (BUFFER_SIZE * 2)
      = encode (store (file_read file a BUFFER_SIZE) s.buf) :=
    List.take_of_length_le (by rw [encode_length, hlen]; omega)
  simp only [write_round, Nat.mod_eq_of_lt ha, Int.toNat_ofNat, hfill, htake]

/-- The effect of a round on each variable of the session, under the
hypotheses of `write_round_eq`. -/
theorem write_round_effect (file : List Nat) (a : Nat) (sent : Int) (s : Session)
    (ha : a < 2 ^ 16) (hbuf : s.buf.length = BUFFER_SIZE)
    (hascii : s.ascii_buf.length = BUFFER_SIZE * 2)
    (hbytes : ∀ x ∈ store (file_read file a BUFFER_SIZE) s.buf, x < 256) :
    (write_round file { recvd_addr := a, sent := sent } s).addr = (a : Int) ∧
    (write_round file { recvd_addr := a, sent := sent } s).buf
      = store (file_read file a BUFFER_SIZE) s.buf ∧
    (write_round file { recvd_addr := a, sent := sent } s).buf.length = BUFFER_SIZE ∧
    (write_round file { recvd_addr := a, sent := sent } s).ascii_buf.length = BUFFER_SIZE * 2 ∧
    (write_round file { recvd_addr := a, sent := sent } s).log
      = s.log ++ [.com_read_addr a, .file_seek a, .file_read (file_read file a BUFFER_SIZE),
          .com_write (encode (store (file_read file a BUFFER_SIZE) s.buf)) sent] := by
  have hlen : (store (file_read file a BUFFER_SIZE) s.buf).length = BUFFER_SIZE := by
    rw [store_length _ _ (by rw [hbuf]; exact file_read_length_le file a BUFFER_SIZE), hbuf]
  rw [write_round_eq file a sent s ha hbuf hascii hbytes]
  refine ⟨rfl, rfl, hlen, ?_, rfl⟩
  show (encode _).length = _
  rw [encode_length, hlen]
  omega

theorem write_loop_of_ge (file : List Nat) (script : List WriteRound) (s : Session)
    (h : ¬ s.addr < CHIP_SIZE) : write_loop file script s = .done s := by
  cases script <;> simp [write_loop, h]

theorem write_loop_nil (file : List Nat) (s : Session) (h : s.addr < CHIP_SIZE) :
    write_loop file [] s = .blocked s := by
  simp [write_loop, h]

theorem write_loop_cons_sent (file : List Nat) (r : WriteRound) (rest : List WriteRound)
    (s : Session) (h : s.addr < CHIP_SIZE) (hr : r.sent = (BUFFER_SIZE * 2 : Nat)) :
    write_loop file (r :: rest) s = write_loop file rest (write_round file r s) := by
  simp [write_loop, h, send, hr]

theorem write_loop_cons_short (file : List Nat) (r : WriteRound) (rest : List WriteRound)
    (s : Session) (h : s.addr < CHIP_SIZE) (hr : r.sent ≠ (BUFFER_SIZE * 2 : Nat)) :
    write_loop file (r :: rest) s = .exit 1 (write_round file r s) := by
  have hr' : ¬ r.sent = (BUFFER_SIZE : Int) * 2 := by
    intro e; apply hr; rw [e]; push_cast; rfl
  simp [write_loop, h, send, hr']

/-- While the device supplies addresses below `CHIP_SIZE` the loop keeps
running: one seek and one frame per address, then it waits for the next. -/
theorem write_loop_below : ∀ (addrs : List Nat) (file : List Nat) (s : Session),
    s.addr < CHIP_SIZE → (∀ a ∈ addrs, a < CHIP_SIZE) →
    ∃ s', write_loop file (device_addresses addrs) s = .blocked s' ∧
      s'.addr < CHIP_SIZE ∧
      seeks s'.log = seeks s.log ++ addrs.map Int.ofNat ∧
      (frames_sent s'.log).length = (frames_sent s.log).length + addrs.length := by
  intro addrs
  induction addrs with
  | nil =>
    intro file s hs _
    exact ⟨s, write_loop_nil file s hs, hs, by simp, by simp⟩
  | cons a as ih =>
    intro file s hs hall
    have ha : a < CHIP_SIZE := hall a (List.mem_cons_self a as)
    have ha16 : a % 2 ^ 16 = a := Nat.mod_eq_of_lt (by unfold CHIP_SIZE at ha; omega)
    have hnext : (write_round file { recvd_addr := a, sent := (BUFFER_SIZE * 2 : Nat) } s).addr
        < CHIP_SIZE := by
      rw [write_round_addr]; simp only [ha16]; exact_mod_cast ha
    obtain ⟨s', hrun, haddr, hseeks, hframes⟩ := ih file _ hnext
      (fun x hx => hall x (List.mem_cons_of_mem a hx))
    refine ⟨s', ?_, haddr, ?_, ?_⟩
    · simp only [device_addresses, List.map_cons]
      rw [write_loop_cons_sent file _ _ s hs rfl]
      exact hrun
    · rw [hseeks, write_round_seeks]
      simp only [ha16, List.map_cons, List.append_assoc, List.singleton_append]
      rfl
    · rw [hframes, write_round_frames_length, List.length_cons]
      omega

theorem write_loop_append_of_blocked (file : List Nat) :
    ∀ (pre more : List WriteRound) (s s' : Session),
    write_loop file pre s = .blocked s' → write_loop file (pre ++ more) s = write_loop file more s' := by
  intro pre
  induction pre with
  | nil =>
    intro more s s' h
    by_cases hs : s.addr < CHIP_SIZE
    · rw [write_loop_nil file s hs] at h
      cases h; rfl
    · rw [write_loop_of_ge file _ s hs] at h; cases h
  | cons r rest ih =>
    intro more s s' h
    by_cases hs : s.addr < CHIP_SIZE
    · by_cases hr : r.sent = (BUFFER_SIZE * 2 : Nat)
      · rw [write_loop_cons_sent file r rest s hs hr] at h
        rw [List.cons_append, write_loop_cons_sent file r (rest ++ more) s hs hr]
        exact ih more _ s' h
      · rw [write_loop_cons_short file r rest s hs hr] at h; cases h
    · rw [write_loop_of_ge file _ s hs] at h; cases h

/-- A run of the loop to its end: addresses below `CHIP_SIZE`, then one
16-bit address at or above it.  The round of that last address is performed
like the others, and the loop ends after it. -/
theorem write_loop_run (file : List Nat) (pre : List Nat) (a : Nat) (rest : List Nat)
    (s : Session) (hs : s.addr < CHIP_SIZE) (hpre : ∀ x ∈ pre, x < CHIP_SIZE)
    (ha : CHIP_SIZE ≤ a) (ha16 : a < 2 ^ 16) :
    ∃ s', write_loop file (device_addresses (pre ++ a :: rest)) s = .done s' ∧
      s'.addr = a ∧
      seeks s'.log = seeks s.log ++ (pre ++ [a]).map Int.ofNat ∧
      (frames_sent s'.log).length = (frames_sent s.log).length + (pre.length + 1) := by
  obtain ⟨s₁, hrun, haddr, hseeks, hframes⟩ := write_loop_below pre file s hs hpre
  have hmod : a % 2 ^ 16 = a := Nat.mod_eq_of_lt ha16
  refine ⟨write_round file { recvd_addr := a, sent := (BUFFER_SIZE * 2 : Nat) } s₁, ?_, ?_, ?_, ?_⟩
  · have hsplit : device_addresses (pre ++ a :: rest)
        = device_addresses pre ++ { recvd_addr := a, sent := (BUFFER_SIZE * 2 : Nat) }
            :: device_addresses rest := by
      simp [device_addresses]
    rw [hsplit, write_loop_append_of_blocked file _ _ s s₁ hrun,
      write_loop_cons_sent file _ _ s₁ haddr rfl]
    apply write_loop_of_ge
    rw [write_round_addr]; simp only [hmod]
    have : (CHIP_SIZE : Int) ≤ (a : Int) := by exact_mod_cast ha
    omega
  · rw [write_round_addr]; simp only [hmod]
  · rw [write_round_seeks, hseeks]
    simp only [hmod, List.map_append, List.append_assoc, List.map_cons, List.map_nil]
    rfl
  · rw [write_round_frames_length, hframes]
    omega

theorem chip_addresses_split :
    (List.range 513).map (fun i => i * 64) = (List.range 512).map (fun i => i * 64) ++ [32768] := by
  rw [List.range_succ, List.map_append]
  rfl

theorem chip_addresses_below : ∀ x ∈ (List.range 512).map (fun i => i * 64), x < CHIP_SIZE := by
  intro x hx
  obtain ⟨i, hi, rfl⟩ := List.mem_map.mp hx
  have := List.mem_range.mp hi
  unfold CHIP_SIZE
  omega

/-! ## Claims on the write session -/

/-- C7, as the code has it (write session addressing): given the
device-supplied addresses `[0, 64, 128, ..., 32704, 32768]`, the WRITE loop
started at `addr = 0` performs one send round per received address, the last
one included: 513 seeks and 513 frames in all, and it ends by its loop
condition after the round that received 32768.  After the 512 addresses
below `CHIP_SIZE`, with 512 frames sent, it is still waiting for an address. -/
theorem write_loop_addressing (file : List Nat) (s : Session) (hs : s.addr = 0) :
    (∃ s', write_loop file (device_addresses ((List.range 513).map (fun i => i * 64))) s
        = .done s' ∧
      s'.addr = 32768 ∧
      seeks s'.log = seeks s.log ++ ((List.range 513).map (fun i => i * 64)).map Int.ofNat ∧
      (frames_sent s'.log).length = (frames_sent s.log).length + 513) ∧
    (∃ s', write_loop file (device_addresses ((List.range 512).map (fun i => i * 64))) s
        = .blocked s' ∧
      (frames_sent s'.log).length = (frames_sent s.log).length + 512) := by
  have hs' : s.addr < CHIP_SIZE := by rw [hs]; decide
  constructor
  · obtain ⟨s', hrun, haddr, hseeks, hframes⟩ := write_loop_run file
      ((List.range 512).map (fun i => i * 64)) 32768 [] s hs' chip_addresses_below
      (by decide) (by decide)
    rw [← chip_addresses_split] at hrun hseeks
    refine ⟨s', hrun, haddr, hseeks, ?_⟩
    rw [hframes, List.length_map, List.length_range]
  · obtain ⟨s', hrun, _, _, hframes⟩ := write_loop_below
      ((List.range 512).map (fun i => i * 64)) file s hs' chip_addresses_below
    refine ⟨s', hrun, ?_⟩
    rw [hframes, List.length_map, List.length_range]

/-- Witness of C7 as the code has it: an image of 32768 bytes `0xAA`. -/
theorem write_loop_addressing_witness :
    (∃ s', write_loop (List.replicate 32768 0xAA)
        (device_addresses ((List.range 513).map (fun i => i * 64)))
        { addr := 0, buf := List.replicate 64 0, ascii_buf := List.replicate 128 'x', log := [] }
        = .done s' ∧
      s'.addr = 32768 ∧
      seeks s'.log = seeks [] ++ ((List.range 513).map (fun i => i * 64)).map Int.ofNat ∧
      (frames_sent s'.log).length = (frames_sent []).length + 513) ∧
    (∃ s', write_loop (List.replicate 32768 0xAA)
        (device_addresses ((List.range 512).map (fun i => i * 64)))
        { addr := 0, buf := List.replicate 64 0, ascii_buf := List.replicate 128 'x', log := [] }
        = .blocked s' ∧
      (frames_sent s'.log).length = (frames_sent []).length + 512) :=
  write_loop_addressing (List.replicate 32768 0xAA)
    { addr := 0, buf := List.replicate 64 0, ascii_buf := List.replicate 128 'x', log := [] } rfl

/-- C7 as stated fails: on an image of 32768 bytes `0xAA` and the addresses
`[0, 64, ..., 32704, 32768]`, the loop does not end with exactly 512 frames
sent (it ends with 513). -/
theorem write_loop_512_frames_counterexample :
    ¬ ∃ s', write_loop (List.replicate 32768 0xAA)
        (device_addresses ((List.range 513).map (fun i => i * 64)))
        { addr := 0, buf := List.replicate 64 0, ascii_buf := List.replicate 128 'x', log := [] }
        = .done s' ∧
      (frames_sent s'.log).length = 512 := by
  rintro ⟨s', hrun, hframes⟩
  obtain ⟨s'', hrun', _, _, hframes'⟩ := write_loop_run (List.replicate 32768 0xAA)
    ((List.range 512).map (fun i => i * 64)) 32768 []
    { addr := 0, buf := List.replicate 64 0, ascii_buf := List.replicate 128 'x', log := [] }
    (by decide) chip_addresses_below (by decide) (by decide)
  rw [← chip_addresses_split, hrun] at hrun'
  cases hrun'
  rw [hframes, List.length_map, List.length_range] at hframes'
  simp [frames_sent] at hframes'

theorem encode_AA : encode (List.replicate 64 0xAA) = List.replicate 128 'A' := by
  decide

/-- C8 (write session chunk content): for every source and every
device-supplied address `a < CHIP_SIZE` such that the source holds at least
`BUFFER_SIZE = 64` bytes from offset `a`, the round seeks to `a`, reads those 64
bytes and hands to the serial line the frame `encode(source[a .. a+64))`,
whatever the buffers held and whatever the serial line then reports; when
those bytes are 64 times `0xAA` (as for address 0 of a source that starts
with them) the frame is 128 times the character `A`. -/
theorem write_round_chunk_frame (file : List Nat) (a : Nat) (sent : Int) (s : Session)
    (hfile : ∀ x ∈ file, x < 256) (ha : a < CHIP_SIZE) (hfull : a + BUFFER_SIZE ≤ file.length)
    (hbuf : s.buf.length = BUFFER_SIZE) (hascii : s.ascii_buf.length = BUFFER_SIZE * 2) :
    (write_round file { recvd_addr := a, sent := sent } s).log
      = s.log ++ [.com_read_addr a, .file_seek a, .file_read ((file.drop a).take BUFFER_SIZE),
          .com_write (encode ((file.drop a).take BUFFER_SIZE)) sent] ∧
    frames_sent (write_round file { recvd_addr := a, sent := sent } s).log
      = frames_sent s.log ++ [encode ((file.drop a).take BUFFER_SIZE)] ∧
    ((file.drop a).take BUFFER_SIZE = List.replicate 64 0xAA →
      frames_sent (write_round file { recvd_addr := a, sent := sent } s).log
        = frames_sent s.log ++ [List.replicate 128 'A']) := by
  have ha16 : a < 2 ^ 16 := by unfold CHIP_SIZE at ha; omega
  have hchunk : (file_read file a BUFFER_SIZE).length = BUFFER_SIZE :=
    file_read_length file a BUFFER_SIZE hfull
  have hstore : store (file_read file a BUFFER_SIZE) s.buf = file_read file a BUFFER_SIZE :=
    store_full _ _ (by rw [hbuf, hchunk])
  have hbytes : ∀ x ∈ store (file_read file a BUFFER_SIZE) s.buf, x < 256 := by
    intro x hx
    rw [hstore] at hx
    exact hfile x (mem_file_read file a BUFFER_SIZE x hx)
  have hround := write_round_eq file a sent s ha16 hbuf hascii hbytes
  rw [hstore] at hround
  have hframes : frames_sent (write_round file { recvd_addr := a, sent := sent } s).log
      = frames_sent s.log ++ [encode ((file.drop a).take BUFFER_SIZE)] := by
    rw [hround]
    simp [frames_sent_append, frames_sent, file_read]
  refine ⟨?_, hframes, ?_⟩
  · rw [hround]; rfl
  · intro hAA
    rw [hframes, hAA, encode_AA]

/-- Witness of C8: 64 bytes `0xAA` at offset 0 and address 0. -/
theorem write_round_chunk_frame_witness :
    frames_sent (write_round (List.replicate 64 0xAA) { recvd_addr := 0, sent := 128 }
        { addr := 0, buf := List.replicate 64 0, ascii_buf := List.replicate 128 'x',
          log := [] }).log
      = frames_sent [] ++ [List.replicate 128 'A'] :=
  (write_round_chunk_frame (List.replicate 64 0xAA) 0 128
    { addr := 0, buf := List.replicate 64 0, ascii_buf := List.replicate 128 'x', log := [] }
    (by intro x hx; rw [List.eq_of_mem_replicate hx]; decide) (by decide)
    (by rw [List.length_replicate]; decide) (List.length_replicate 64 0)
    (List.length_replicate 128 'x')).2.2 (by decide)

/-- C9 (repeated addresses): given the device-supplied addresses
`[0, 0, 64, 32768]`, a source of at least 128 bytes and a session started at
`addr = 0`, the loop seeks to 0, reads the chunk at 0 and sends its frame in
the first round and again in the second, then does the same for the chunk at
64, and ends after the round of 32768: sixteen interactions, no address
skipped. -/
theorem write_loop_repeated_address (file : List Nat) (s : Session)
    (hfile : ∀ x ∈ file, x < 256) (hlen : 2 * BUFFER_SIZE ≤ file.length)
    (hs : s.addr = 0) (hbuf : s.buf.length = BUFFER_SIZE)
    (hascii : s.ascii_buf.length = BUFFER_SIZE * 2) :
    ∃ s', write_loop file (device_addresses [0, 0, 64, 32768]) s = .done s' ∧
      s'.log = s.log ++
        [.com_read_addr 0, .file_seek 0, .file_read (file.take BUFFER_SIZE),
          .com_write (encode (file.take BUFFER_SIZE)) 128,
         .com_read_addr 0, .file_seek 0, .file_read (file.take BUFFER_SIZE),
          .com_write (encode (file.take BUFFER_SIZE)) 128,
         .com_read_addr 64, .file_seek 64, .file_read ((file.drop 64).take BUFFER_SIZE),
          .com_write (encode ((file.drop 64).take BUFFER_SIZE)) 128,
         .com_read_addr 32768, .file_seek 32768, .file_read ((file.drop 32768).take BUFFER_SIZE),
          .com_write (encode (store ((file.drop 32768).take BUFFER_SIZE)
            ((file.drop 64).take BUFFER_SIZE))) 128] := by
  have hB : BUFFER_SIZE = 64 := rfl
  have hs0 : s.addr < CHIP_SIZE := by rw [hs]; decide
  have hc0 : (file_read file 0 BUFFER_SIZE).length = BUFFER_SIZE :=
    file_read_length file 0 BUFFER_SIZE (by omega)
  have hc64 : (file_read file 64 BUFFER_SIZE).length = BUFFER_SIZE :=
    file_read_length file 64 BUFFER_SIZE (by omega)
  have hmem : ∀ pos, ∀ x ∈ file_read file pos BUFFER_SIZE, x < 256 :=
    fun pos x hx => hfile x (mem_file_read file pos BUFFER_SIZE x hx)
  -- first round: address 0
  obtain ⟨a₁, b₁, bl₁, al₁, l₁⟩ := write_round_effect file 0 (BUFFER_SIZE * 2 : Nat) s
    (by decide) hbuf hascii
    (by rw [store_full _ _ (by rw [hbuf, hc0])]; exact hmem 0)
  rw [store_full _ _ (by rw [hbuf, hc0])] at b₁ l₁
  -- second round: address 0 again
  obtain ⟨a₂, b₂, bl₂, al₂, l₂⟩ := write_round_effect file 0 (BUFFER_SIZE * 2 : Nat)
    (write_round file { recvd_addr := 0, sent := (BUFFER_SIZE * 2 : Nat) } s)
    (by decide) bl₁ al₁
    (by rw [store_full _ _ (by rw [bl₁, hc0])]; exact hmem 0)
  rw [store_full _ _ (by rw [bl₁, hc0])] at b₂ l₂
  -- third round: address 64
  obtain ⟨a₃, b₃, bl₃, al₃, l₃⟩ := write_round_effect file 64 (BUFFER_SIZE * 2 : Nat)
    (write_round file { recvd_addr := 0, sent := (BUFFER_SIZE * 2 : Nat) }
      (write_round file { recvd_addr := 0, sent := (BUFFER_SIZE * 2 : Nat) } s))
    (by decide) bl₂ al₂
    (by rw [store_full _ _ (by rw [bl₂, hc64])]; exact hmem 64)
  rw [store_full _ _ (by rw [bl₂, hc64])] at b₃ l₃
  -- fourth round: address 32768
  obtain ⟨a₄, _, _, _, l₄⟩ := write_round_effect file 32768 (BUFFER_SIZE * 2 : Nat)
    (write_round file { recvd_addr := 64, sent := (BUFFER_SIZE * 2 : Nat) }
      (write_round file { recvd_addr := 0, sent := (BUFFER_SIZE * 2 : Nat) }
        (write_round file { recvd_addr := 0, sent := (BUFFER_SIZE * 2 : Nat) } s)))
    (by decide) bl₃ al₃
    (by
      intro x hx
      rcases mem_store _ _ x hx with h | h
      · exact hmem 32768 x h
      · rw [b₃] at h; exact hmem 64 x h)
  refine ⟨write_round file { recvd_addr := 32768, sent := (BUFFER_SIZE * 2 : Nat) }
    (write_round file { recvd_addr := 64, sent := (BUFFER_SIZE * 2 : Nat) }
      (write_round file { recvd_addr := 0, sent := (BUFFER_SIZE * 2 : Nat) }
        (write_round file { recvd_addr := 0, sent := (BUFFER_SIZE * 2 : Nat) } s))), ?_, ?_⟩
  · simp only [device_addresses, List.map_cons, List.map_nil]
    rw [write_loop_cons_sent file _ _ s hs0 rfl,
      write_loop_cons_sent file _ _ _ (by rw [a₁]; decide) rfl,
      write_loop_cons_sent file _ _ _ (by rw [a₂]; decide) rfl,
      write_loop_cons_sent file _ _ _ (by rw [a₃]; decide) rfl]
    exact write_loop_of_ge file [] _ (by rw [a₄]; decide)
  · rw [l₄, l₃, l₂, l₁, b₃]
    simp [file_read, hB]

/-- Witness of C9: a source holding the bytes 0, 1, ..., 127. -/
theorem write_loop_repeated_address_witness :
    ∃ s', write_loop (List.range 128) (device_addresses [0, 0, 64, 32768])
        { addr := 0, buf := List.replicate 64 0, ascii_buf := List.replicate 128 'x', log := [] }
        = .done s' ∧
      seeks s'.log = [0, 0, 64, 32768] ∧
      (frames_sent s'.log).take 2
        = [encode ((List.range 128).take 64), encode ((List.range 128).take 64)] := by
  obtain ⟨s', hrun, hlog⟩ := write_loop_repeated_address (List.range 128)
    { addr := 0, buf := List.replicate 64 0, ascii_buf := List.replicate 128 'x', log := [] }
    (by intro x hx; have := List.mem_range.mp hx; omega)
    (by rw [List.length_range]; decide) rfl (List.length_replicate 64 0)
    (List.length_replicate 128 'x')
  refine ⟨s', hrun, ?_, ?_⟩
  · rw [hlog]; rfl
  · rw [hlog]; rfl

/-- C10 (authoritative address and termination): for every sequence of
device-supplied 16-bit addresses whose frames the serial line accepts, the
loop (started below `CHIP_SIZE`, as `main` starts it at 0) keeps running while
the addresses `pre` received are below `CHIP_SIZE`, and ends by its loop
condition after the round that receives an address `a >= CHIP_SIZE`, with
`addr = a`; the file is sought to exactly the addresses received, in order.
In every single round, from any session state, `addr` becomes the address
received, whatever it was before, and the one seek of the round is to that
address. -/
theorem write_loop_address_authoritative (file : List Nat) (pre : List Nat) (a : Nat)
    (rest : List Nat) (s : Session) (hs : s.addr < CHIP_SIZE)
    (hpre : ∀ x ∈ pre, x < CHIP_SIZE) (ha : CHIP_SIZE ≤ a) (ha16 : a < 2 ^ 16) :
    (∃ s', write_loop file (device_addresses pre) s = .blocked s' ∧
      seeks s'.log = seeks s.log ++ pre.map Int.ofNat) ∧
    (∃ s', write_loop file (device_addresses (pre ++ a :: rest)) s = .done s' ∧
      s'.addr = a ∧ seeks s'.log = seeks s.log ++ (pre ++ [a]).map Int.ofNat) ∧
    (∀ (r : WriteRound) (t : Session), r.recvd_addr < 2 ^ 16 →
      (write_round file r t).addr = r.recvd_addr ∧
      seeks (write_round file r t).log = seeks t.log ++ [(r.recvd_addr : Int)]) := by
  refine ⟨?_, ?_, ?_⟩
  · obtain ⟨s', hrun, _, hseeks, _⟩ := write_loop_below pre file s hs hpre
    exact ⟨s', hrun, hseeks⟩
  · obtain ⟨s', hrun, haddr, hseeks, _⟩ := write_loop_run file pre a rest s hs hpre ha ha16
    exact ⟨s', hrun, haddr, hseeks⟩
  · intro r t hr
    rw [write_round_addr, write_round_seeks, Nat.mod_eq_of_lt hr]
    exact ⟨rfl, rfl⟩

/-- Witness of C10: the addresses 128, 0, 0 and then 40000, on an empty source. -/
theorem write_loop_address_authoritative_witness :
    ∃ s', write_loop [] (device_addresses ([128, 0, 0] ++ 40000 :: [64]))
        { addr := 0, buf := List.replicate 64 0, ascii_buf := List.replicate 128 'x', log := [] }
        = .done s' ∧
      s'.addr = (40000 : Nat) ∧ seeks s'.log = seeks [] ++ ([128, 0, 0] ++ [40000]).map Int.ofNat :=
  (write_loop_address_authoritative [] [128, 0, 0] 40000 [64]
    { addr := 0, buf := List.replicate 64 0, ascii_buf := List.replicate 128 'x', log := [] }
    (by decide) (by decide) (by decide) (by decide)).2.1

/-! ## Lemmas on the wire format -/

theorem hex_digit_is_hex_digit : ∀ v, v < 16 → is_hex_digit (hex_digit v) := by
  decide

theorem encode_is_hex (bs : List Nat) (hbs : ∀ x ∈ bs, x < 256) :
    ∀ c ∈ encode bs, is_hex_digit c := by
  induction bs with
  | nil => intro c hc; simp [encode] at hc
  | cons b bs ih =>
    intro c hc
    have hb : b < 256 := hbs b (List.mem_cons_self b bs)
    simp only [encode, List.mem_cons] at hc
    rcases hc with rfl | rfl | hc
    · exact hex_digit_is_hex_digit _ (by omega)
    · exact hex_digit_is_hex_digit _ (by omega)
    · exact ih (fun x hx => hbs x (List.mem_cons_of_mem b hx)) c hc

theorem write_round_mod (file : List Nat) (r : WriteRound) (s : Session) :
    write_round file r s
      = write_round file { recvd_addr := r.recvd_addr % 2 ^ 16, sent := r.sent } s := by
  simp only [write_round, Nat.mod_mod]

theorem store_file_read_bytes (file : List Nat) (a : Nat) (s : Session)
    (hfile : ∀ x ∈ file, x < 256) (hs : s.buffers_ok) :
    ∀ x ∈ store (file_read file a BUFFER_SIZE) s.buf, x < 256 := by
  intro x hx
  rcases mem_store _ _ x hx with h | h
  · exact hfile x (mem_file_read file a BUFFER_SIZE x h)
  · exact hs.2.2 x h

/-- A round keeps the buffers as `main` declares them. -/
theorem write_round_buffers_ok (file : List Nat) (r : WriteRound) (s : Session)
    (hfile : ∀ x ∈ file, x < 256) (hs : s.buffers_ok) :
    (write_round file r s).buffers_ok := by
  rw [write_round_mod]
  have hbytes := store_file_read_bytes file (r.recvd_addr % 2 ^ 16) s hfile hs
  obtain ⟨_, hb, hbl, hal, _⟩ := write_round_effect file (r.recvd_addr % 2 ^ 16) r.sent s
    (Nat.mod_lt _ (by decide)) hs.1 hs.2.1 hbytes
  refine ⟨hbl, hal, ?_⟩
  rw [hb]
  exact hbytes

/-- The frame of a round is the encoding of the chunk buffer after the file read. -/
theorem write_round_frames (file : List Nat) (r : WriteRound) (s : Session)
    (hfile : ∀ x ∈ file, x < 256) (hs : s.buffers_ok) :
    frames_sent (write_round file r s).log = frames_sent s.log ++
      [encode (store (file_read file (r.recvd_addr % 2 ^ 16) BUFFER_SIZE) s.buf)] := by
  rw [write_round_mod]
  have hbytes := store_file_read_bytes file (r.recvd_addr % 2 ^ 16) s hfile hs
  obtain ⟨_, _, _, _, hl⟩ := write_round_effect file (r.recvd_addr % 2 ^ 16) r.sent s
    (Nat.mod_lt _ (by decide)) hs.1 hs.2.1 hbytes
  rw [hl, frames_sent_append]
  rfl

theorem write_round_frame_wire (file : List Nat) (r : WriteRound) (s : Session)
    (hfile : ∀ x ∈ file, x < 256) (hs : s.buffers_ok) :
    (encode (store (file_read file (r.recvd_addr % 2 ^ 16) BUFFER_SIZE) s.buf)).length
        = BUFFER_SIZE * 2 ∧
    ∀ c ∈ encode (store (file_read file (r.recvd_addr % 2 ^ 16) BUFFER_SIZE) s.buf),
      is_hex_digit c := by
  constructor
  · rw [encode_length,
      store_length _ _ (by rw [hs.1]; exact file_read_length_le file _ BUFFER_SIZE), hs.1]
    omega
  · exact encode_is_hex _ (store_file_read_bytes file _ s hfile hs)

/-- A property of frames that every round's frame has holds of every frame
the loop sends, however the loop ends. -/
theorem write_loop_frames_all (file : List Nat) (hfile : ∀ x ∈ file, x < 256)
    (P : List Char → Prop)
    (hP : ∀ (r : WriteRound) (s : Session), s.buffers_ok →
      P (encode (store (file_read file (r.recvd_addr % 2 ^ 16) BUFFER_SIZE) s.buf))) :
    ∀ (script : List WriteRound) (s : Session), s.buffers_ok →
      (∀ f ∈ frames_sent s.log, P f) →
      ∀ f ∈ frames_sent (write_loop file script s).session.log, P f := by
  intro script
  induction script with
  | nil =>
    intro s _ hlog
    by_cases h : s.addr < CHIP_SIZE
    · rw [write_loop_nil file s h]; exact hlog
    · rw [write_loop_of_ge file _ s h]; exact hlog
  | cons r rest ih =>
    intro s hs hlog
    by_cases h : s.addr < CHIP_SIZE
    · have hnext : ∀ f ∈ frames_sent (write_round file r s).log, P f := by
        intro f hf
        rw [write_round_frames file r s hfile hs] at hf
        rcases List.mem_append.mp hf with hf | hf
        · exact hlog f hf
        · rw [List.mem_singleton.mp hf]; exact hP r s hs
      by_cases hr : r.sent = (BUFFER_SIZE * 2 : Nat)
      · rw [write_loop_cons_sent file r rest s h hr]
        exact ih _ (write_round_buffers_ok file r s hfile hs) hnext
      · rw [write_loop_cons_short file r rest s h hr]
        exact hnext
    · rw [write_loop_of_ge file _ s h]; exact hlog

/-! ## Claims on the wire format -/

/-- C11 (wire format of write replies): for every source content, every
script of device-supplied addresses and transport results, and every way the
loop ends, each frame the WRITE loop hands to the transport is exactly 128
characters long and each of its characters is one of `'0'..'9'`, `'A'..'F'`. -/
theorem write_loop_frames_wire_format (file : List Nat) (script : List WriteRound)
    (s : Session) (hfile : ∀ x ∈ file, x < 256) (hs : s.buffers_ok)
    (hlog : frames_sent s.log = []) :
    ∀ f ∈ frames_sent (write_loop file script s).session.log,
      f.length = 128 ∧ ∀ c ∈ f, is_hex_digit c := by
  apply write_loop_frames_all file hfile (fun f => f.length = 128 ∧ ∀ c ∈ f, is_hex_digit c)
    (fun r t ht => write_round_frame_wire file r t hfile ht) script s hs
  intro f hf
  rw [hlog] at hf
  cases hf

/-- Witness of C11: a three-byte source asked for address 1, the frame refused
by the serial line; the frame encodes the two bytes read and 62 stale bytes. -/
theorem write_loop_frames_wire_format_witness :
    (encode ([0xAB, 0xFF] ++ List.replicate 62 0xEE)).length = 128 :=
  (write_loop_frames_wire_format [0x12, 0xAB, 0xFF] [{ recvd_addr := 1, sent := 5 }]
    { addr := 0, buf := List.replicate 64 0xEE, ascii_buf := List.replicate 128 'x', log := [] }
    (by decide)
    ⟨List.length_replicate 64 0xEE, List.length_replicate 128 'x',
      fun x hx => by rw [List.eq_of_mem_replicate hx]; decide⟩
    rfl (encode ([0xAB, 0xFF] ++ List.replicate 62 0xEE)) (by decide)).1

/-! ## Lemmas on the command dispatch -/

theorem read_round_ok_log (r : Receive) (s s' : Session) (h : read_round r s = .ok s') :
    ∃ data, s'.log = s.log ++ [.com_read (r.recvd (BUFFER_SIZE * 2)), .file_write data] := by
  simp only [read_round] at h
  split at h
  · cases h
  · cases h
    exact ⟨_, (List.append_assoc _ _ _).trans rfl⟩

theorem read_round_error_log (r : Receive) (s s' : Session) (h : read_round r s = .error s') :
    s'.log = s.log ++ [.com_read (r.recvd (BUFFER_SIZE * 2))] ∧ s'.addr = s.addr ∧
      s'.buf = s.buf := by
  simp only [read_round] at h
  split at h
  · cases h
    exact ⟨rfl, rfl, rfl⟩
  · cases h

/-- The READ loop only adds to the log, and hands nothing to the serial line. -/
theorem read_loop_log : ∀ (script : List Receive) (s : Session),
    ∃ more, (read_loop script s).session.log = s.log ++ more ∧ frames_sent more = [] := by
  intro script
  induction script with
  | nil =>
    intro s
    refine ⟨[], ?_, rfl⟩
    by_cases h : s.addr < CHIP_SIZE <;> simp [read_loop, h, Outcome.session]
  | cons r rest ih =>
    intro s
    by_cases h : s.addr < CHIP_SIZE
    · cases hr : read_round r s with
      | error e =>
        rw [read_loop_cons_error r rest s e h hr]
        exact ⟨_, (read_round_error_log r s e hr).1, rfl⟩
      | ok t =>
        rw [read_loop_cons_ok r rest s t h hr]
        obtain ⟨data, ht⟩ := read_round_ok_log r s t hr
        obtain ⟨more, hmore, hnone⟩ := ih t
        refine ⟨[.com_read (r.recvd (BUFFER_SIZE * 2)), .file_write data] ++ more, ?_, ?_⟩
        · rw [hmore, ht, List.append_assoc]
        · rw [frames_sent_append, hnone]; rfl
    · rw [read_loop_of_ge _ s h]
      exact ⟨[], by simp [Outcome.session], rfl⟩

theorem write_round_log (file : List Nat) (r : WriteRound) (s : Session) :
    ∃ frame, (write_round file r s).log = s.log ++
      [.com_read_addr (r.recvd_addr % 2 ^ 16), .file_seek ((r.recvd_addr % 2 ^ 16 : Nat) : Int),
        .file_read (file_read file (r.recvd_addr % 2 ^ 16) BUFFER_SIZE),
        .com_write frame r.sent] :=
  ⟨_, rfl⟩

/-- The WRITE loop only adds to the log. -/
theorem write_loop_log (file : List Nat) : ∀ (script : List WriteRound) (s : Session),
    ∃ more, (write_loop file script s).session.log = s.log ++ more := by
  intro script
  induction script with
  | nil =>
    intro s
    refine ⟨[], ?_⟩
    by_cases h : s.addr < CHIP_SIZE <;> simp [write_loop, h, Outcome.session]
  | cons r rest ih =>
    intro s
    by_cases h : s.addr < CHIP_SIZE
    · obtain ⟨frame, hround⟩ := write_round_log file r s
      by_cases hr : r.sent = (BUFFER_SIZE * 2 : Nat)
      · rw [write_loop_cons_sent file r rest s h hr]
        obtain ⟨more, hmore⟩ := ih (write_round file r s)
        exact ⟨_, by rw [hmore, hround, List.append_assoc]⟩
      · rw [write_loop_cons_short file r rest s h hr]
        exact ⟨_, hround⟩
    · rw [write_loop_of_ge file _ s h]
      exact ⟨[], by simp [Outcome.session]⟩

theorem send_ok (count : Int) : send count count = .ok count := by
  simp [send]

theorem send_short (sent count : Int) (h : sent ≠ count) : send sent count = .error 1 := by
  simp [send, h]

theorem prepend_session_log (pre : List Event) (o : Outcome) :
    (o.prepend pre).session.log = pre ++ o.session.log := by
  cases o <;> rfl

theorem read_round_prepend (pre : List Event) (r : Receive) (s : Session) :
    read_round r (s.prepend pre) =
      match read_round r s with
      | .error t => .error (t.prepend pre)
      | .ok t => .ok (t.prepend pre) := by
  simp only [read_round, Session.prepend]
  split <;> simp

/-- The READ loop does not look at the log: events that happened before it
stay in front of what it adds. -/
theorem read_loop_prepend (pre : List Event) : ∀ (script : List Receive) (s : Session),
    read_loop script (s.prepend pre) = (read_loop script s).prepend pre := by
  intro script
  induction script with
  | nil =>
    intro s
    have ha : (s.prepend pre).addr = s.addr := rfl
    by_cases h : s.addr < CHIP_SIZE <;> simp [read_loop, ha, h, Outcome.prepend]
  | cons r rest ih =>
    intro s
    have ha : (s.prepend pre).addr = s.addr := rfl
    by_cases h : s.addr < CHIP_SIZE
    · have h' : (s.prepend pre).addr < CHIP_SIZE := by rw [ha]; exact h
      cases hr : read_round r s with
      | error e =>
        have hr' : read_round r (s.prepend pre) = .error (e.prepend pre) := by
          rw [read_round_prepend, hr]
        rw [read_loop_cons_error r rest s e h hr,
          read_loop_cons_error r rest _ _ h' hr']
        rfl
      | ok t =>
        have hr' : read_round r (s.prepend pre) = .ok (t.prepend pre) := by
          rw [read_round_prepend, hr]
        rw [read_loop_cons_ok r rest s t h hr, read_loop_cons_ok r rest _ _ h' hr']
        exact ih t
    · have h' : ¬ (s.prepend pre).addr < CHIP_SIZE := by rw [ha]; exact h
      rw [read_loop_of_ge _ s h, read_loop_of_ge _ _ h']
      rfl

theorem write_round_prepend (pre : List Event) (file : List Nat) (r : WriteRound)
    (s : Session) :
    write_round file r (s.prepend pre) = (write_round file r s).prepend pre := by
  simp [write_round, Session.prepend]

/-- The WRITE loop does not look at the log either. -/
theorem write_loop_prepend (pre : List Event) (file : List Nat) :
    ∀ (script : List WriteRound) (s : Session),
    write_loop file script (s.prepend pre) = (write_loop file script s).prepend pre := by
  intro script
  induction script with
  | nil =>
    intro s
    have ha : (s.prepend pre).addr = s.addr := rfl
    by_cases h : s.addr < CHIP_SIZE <;> simp [write_loop, ha, h, Outcome.prepend]
  | cons r rest ih =>
    intro s
    have ha : (s.prepend pre).addr = s.addr := rfl
    by_cases h : s.addr < CHIP_SIZE
    · have h' : (s.prepend pre).addr < CHIP_SIZE := by rw [ha]; exact h
      by_cases hr : r.sent = (BUFFER_SIZE * 2 : Nat)
      · rw [write_loop_cons_sent file r rest s h hr, write_loop_cons_sent file r rest _ h' hr,
          write_round_prepend]
        exact ih _
      · rw [write_loop_cons_short file r rest s h hr,
          write_loop_cons_short file r rest _ h' hr, write_round_prepend]
        rfl
    · have h' : ¬ (s.prepend pre).addr < CHIP_SIZE := by rw [ha]; exact h
      rw [write_loop_of_ge file _ s h, write_loop_of_ge file _ _ h']
      rfl

/-- The READ loop hands nothing to the serial line. -/
theorem read_loop_sends_nothing (script : List Receive) (buf : List Nat)
    (ascii_buf : List Char) :
    frames_sent (read_loop script (initial_session buf ascii_buf)).session.log = [] := by
  obtain ⟨more, hmore, hnone⟩ := read_loop_log script (initial_session buf ascii_buf)
  rw [hmore]
  exact hnone

/-! ## Claims on the command dispatch -/

/-- C12 (command dispatch): Erase leaves the log empty, and the whole log of
Unlock is the single send of `'U'`, with no receive.  With the data file
opened, the log of Read is the open, then the send of the one byte `'R'`, then
exactly the events of the READ loop run from the initial locals (none, when
the byte was not written), and the host hands nothing but `'R'` to the line;
the log of Write with a source configured is the open, then the send of the
one byte `'W'`, then exactly the events of the WRITE loop run from the initial
locals, so that what the host hands to the line is `'W'` followed by the
frames of that loop and nothing else. -/
theorem main_switch_command_byte (filename : Option String) (name : String) (w : World)
    (buf : List Nat) (ascii_buf : List Char) :
    ((main_switch .ERASE filename w buf ascii_buf).session.log = [] ∧
      host_transcript (main_switch .ERASE filename w buf ascii_buf).session.log = []) ∧
    ((main_switch .UNLOCK filename w buf ascii_buf).session.log
        = [.com_write ['U'] w.cmd_sent] ∧
      host_transcript (main_switch .UNLOCK filename w buf ascii_buf).session.log = ['U']) ∧
    (w.file_opens = true →
      ((main_switch .READ filename w buf ascii_buf).session.log
          = [.file_open (filename.getD FILENAME) true, .com_write ['R'] w.cmd_sent] ++
            (if w.cmd_sent = 1 then
              (read_loop w.receives (initial_session buf ascii_buf)).session.log
            else []) ∧
        host_transcript (main_switch .READ filename w buf ascii_buf).session.log = ['R']) ∧
      ((main_switch .WRITE (some name) w buf ascii_buf).session.log
          = [.file_open name true, .com_write ['W'] w.cmd_sent] ++
            (if w.cmd_sent = 1 then
              (write_loop w.file w.rounds (initial_session buf ascii_buf)).session.log
            else []) ∧
        host_transcript (main_switch .WRITE (some name) w buf ascii_buf).session.log
          = 'W' :: (if w.cmd_sent = 1 then
              (frames_sent
                (write_loop w.file w.rounds (initial_session buf ascii_buf)).session.log).flatten
            else []))) := by
  refine ⟨⟨rfl, rfl⟩, ?_, ?_⟩
  · have key : (main_switch .UNLOCK filename w buf ascii_buf).session.log
        = [.com_write ['U'] w.cmd_sent] := by
      by_cases hc : w.cmd_sent = 1
      · simp [main_switch, hc, send_ok, Outcome.session]
      · simp [main_switch, send_short _ _ hc, Outcome.session]
    exact ⟨key, by rw [key]; rfl⟩
  · intro hopen
    constructor
    · have key : (main_switch .READ filename w buf ascii_buf).session.log
          = [.file_open (filename.getD FILENAME) true, .com_write ['R'] w.cmd_sent] ++
            (if w.cmd_sent = 1 then
              (read_loop w.receives (initial_session buf ascii_buf)).session.log
            else []) := by
        by_cases hc : w.cmd_sent = 1
        · have hrun : main_switch .READ filename w buf ascii_buf
              = read_loop w.receives ((initial_session buf ascii_buf).prepend
                  [.file_open (filename.getD FILENAME) true, .com_write ['R'] w.cmd_sent]) := by
            simp [main_switch, hopen, hc, send_ok, initial_session, Session.prepend]
          rw [hrun, read_loop_prepend, prepend_session_log, if_pos hc]
        · rw [if_neg hc]
          simp [main_switch, hopen, send_short _ _ hc, Outcome.session]
      refine ⟨key, ?_⟩
      rw [key, host_transcript, frames_sent_append]
      by_cases hc : w.cmd_sent = 1
      · rw [if_pos hc, read_loop_sends_nothing]
        rfl
      · rw [if_neg hc]
        rfl
    · have key : (main_switch .WRITE (some name) w buf ascii_buf).session.log
          = [.file_open name true, .com_write ['W'] w.cmd_sent] ++
            (if w.cmd_sent = 1 then
              (write_loop w.file w.rounds (initial_session buf ascii_buf)).session.log
            else []) := by
        by_cases hc : w.cmd_sent = 1
        · have hrun : main_switch .WRITE (some name) w buf ascii_buf
              = write_loop w.file w.rounds ((initial_session buf ascii_buf).prepend
                  [.file_open name true, .com_write ['W'] w.cmd_sent]) := by
            simp [main_switch, hopen, hc, send_ok, initial_session, Session.prepend]
          rw [hrun, write_loop_prepend, prepend_session_log, if_pos hc]
        · rw [if_neg hc]
          simp [main_switch, hopen, send_short _ _ hc, Outcome.session]
      refine ⟨key, ?_⟩
      rw [key, host_transcript, frames_sent_append]
      by_cases hc : w.cmd_sent = 1
      · rw [if_pos hc, if_pos hc]
        rfl
      · rw [if_neg hc, if_neg hc]
        rfl

/-- Witness of C12: a Write run on a two-byte source whose device asks for
address 40000 and then stops: the host hands over `'W'` and then the frames of
the loop. -/
theorem main_switch_command_byte_witness :
    host_transcript (main_switch .WRITE (some FILENAME)
      { file_opens := true, file := [0x12, 0x34], cmd_sent := 1, receives := [],
        rounds := [{ recvd_addr := 40000, sent := 4 }] }
      [0xAB, 0xCD] ['x', 'x', 'x', 'x']).session.log
      = 'W' :: (if (1 : Int) = 1 then
          (frames_sent (write_loop [0x12, 0x34] [{ recvd_addr := 40000, sent := 4 }]
            (initial_session [0xAB, 0xCD] ['x', 'x', 'x', 'x'])).session.log).flatten
        else []) :=
  ((main_switch_command_byte none FILENAME
    { file_opens := true, file := [0x12, 0x34], cmd_sent := 1, receives := [],
      rounds := [{ recvd_addr := 40000, sent := 4 }] }
    [0xAB, 0xCD] ['x', 'x', 'x', 'x']).2.2 rfl).2.2

/-- C13 (missing input): the Write command with no filename ends the run with
`exit(1)` before anything is logged: nothing is sent (not even `'W'`), nothing
is received, and the data file is neither opened nor read. -/
theorem main_switch_write_without_source (w : World) (buf : List Nat) (ascii_buf : List Char) :
    main_switch .WRITE none w buf ascii_buf
      = .exit 1 { addr := 0, buf := buf, ascii_buf := ascii_buf, log := [] } :=
  rfl

/-- C14 (short send is fatal): `send` returns `count` exactly when `write`
reported `count`; on any other value (fewer bytes, or an error return) it is
`exit(1)`.  In the WRITE loop a frame not written in full ends the run in that
round with the `write` as the last interaction, whatever the script holds
afterwards; the same holds for the command byte of Unlock, Read and Write. -/
theorem send_short_is_fatal (sent count : Int) :
    (send sent count = .ok count ↔ sent = count) ∧
    (sent ≠ count → send sent count = .error 1) ∧
    (∀ (file : List Nat) (r : WriteRound) (rest : List WriteRound) (s : Session),
      s.addr < CHIP_SIZE → r.sent ≠ (BUFFER_SIZE * 2 : Nat) →
      write_loop file (r :: rest) s = .exit 1 (write_round file r s) ∧
      ∃ frame, (write_round file r s).log = s.log ++
        [.com_read_addr (r.recvd_addr % 2 ^ 16),
          .file_seek ((r.recvd_addr % 2 ^ 16 : Nat) : Int),
          .file_read (file_read file (r.recvd_addr % 2 ^ 16) BUFFER_SIZE),
          .com_write frame r.sent]) ∧
    (∀ (filename : Option String) (name : String) (w : World) (buf : List Nat)
        (ascii_buf : List Char), w.cmd_sent ≠ 1 → w.file_opens = true →
      main_switch .UNLOCK filename w buf ascii_buf
        = .exit 1 { addr := 0, buf := buf, ascii_buf := ascii_buf,
                    log := [.com_write ['U'] w.cmd_sent] } ∧
      main_switch .READ filename w buf ascii_buf
        = .exit 1 { addr := 0, buf := buf, ascii_buf := ascii_buf,
                    log := [.file_open (filename.getD FILENAME) true,
                      .com_write ['R'] w.cmd_sent] } ∧
      main_switch .WRITE (some name) w buf ascii_buf
        = .exit 1 { addr := 0, buf := buf, ascii_buf := ascii_buf,
                    log := [.file_open name true, .com_write ['W'] w.cmd_sent] }) := by
  refine ⟨?_, send_short sent count, ?_, ?_⟩
  · constructor
    · intro h
      by_contra hne
      rw [send_short sent count hne] at h
      cases h
    · intro h
      rw [h]
      exact send_ok count
  · intro file r rest s hs hr
    exact ⟨write_loop_cons_short file r rest s hs hr, write_round_log file r s⟩
  · intro filename name w buf ascii_buf hc hopen
    refine ⟨?_, ?_, ?_⟩ <;> simp [main_switch, hopen, send_short _ _ hc]

/-- Witness of C14: the serial line takes 100 of the 128 characters of the
first frame; the two rounds that the script still holds are not run. -/
theorem send_short_is_fatal_witness :
    write_loop [] [{ recvd_addr := 0, sent := 100 }, { recvd_addr := 64, sent := 128 },
        { recvd_addr := 32768, sent := 128 }]
      { addr := 0, buf := [], ascii_buf := [], log := [] }
      = .exit 1 (write_round [] { recvd_addr := 0, sent := 100 }
          { addr := 0, buf := [], ascii_buf := [], log := [] }) :=
  ((send_short_is_fatal 100 128).2.2.1 [] { recvd_addr := 0, sent := 100 }
    [{ recvd_addr := 64, sent := 128 }, { recvd_addr := 32768, sent := 128 }]
    { addr := 0, buf := [], ascii_buf := [], log := [] } (by decide) (by decide)).1

/-! ## Further lemmas on the read session -/

theorem store_take {α : Type} (data buffer : List α) :
    (store data buffer).take data.length = data := by
  unfold store
  exact List.take_left' rfl

/-- The round of an even-length frame appends the decoded frame to the sink
and adds its number of bytes to `addr`. -/
theorem read_round_even_sink (f : List Char) (s : Session)
    (hle : f.length ≤ BUFFER_SIZE * 2) (heven : f.length % 2 = 0)
    (hbuf : s.buf.length = BUFFER_SIZE) :
    ∃ s₁, read_round (.frame f) s = .ok s₁ ∧
      s₁.addr = s.addr + ((decode f).length : Nat) ∧
      (decode f).length = f.length / 2 ∧
      s₁.buf.length = BUFFER_SIZE ∧
      sink_bytes s₁.log = sink_bytes s.log ++ decode f := by
  have hB : BUFFER_SIZE = 64 := rfl
  have hlen2 : f.length = 2 * (f.length / 2) := by omega
  have hdec : (decode f).length = f.length / 2 := decode_length (f.length / 2) f hlen2
  have hsrc : 2 * (f.length / 2) ≤ (store f s.ascii_buf).length := by
    unfold store
    rw [List.length_append]
    omega
  have hfill : fill_bin_buffer (store f s.ascii_buf) s.buf (f.length : Nat)
      = decode f ++ s.buf.drop (f.length / 2) := by
    have h := fill_bin_buffer_eq (store f s.ascii_buf) s.buf (f.length / 2) hsrc (by omega)
    rw [← hlen2, store_take] at h
    exact h
  refine ⟨_, read_round_even f s hle heven, ?_, hdec, ?_, ?_⟩
  · rw [hdec]
  · simp only [fill_bin_buffer_length]; exact hbuf
  · simp only [hfill, sink_bytes_append, sink_bytes, List.append_nil, List.nil_append]
    rw [List.take_left' hdec]

/-- A run of the READ loop on even-length frames: it processes the first `n`
frames in full and stops before the others only with `addr >= CHIP_SIZE`. -/
theorem read_loop_frames_run : ∀ (frames : List (List Char)) (s : Session),
    (∀ f ∈ frames, f.length ≤ BUFFER_SIZE * 2 ∧ f.length % 2 = 0) →
    s.buf.length = BUFFER_SIZE →
    ∃ (n : Nat) (s' : Session), n ≤ frames.length ∧
      (read_loop (frames.map Receive.frame) s = .done s' ∧ CHIP_SIZE ≤ s'.addr ∨
        read_loop (frames.map Receive.frame) s = .blocked s' ∧ n = frames.length) ∧
      sink_bytes s'.log = sink_bytes s.log ++ ((frames.take n).map decode).flatten ∧
      s'.addr = s.addr + ((((frames.take n).map decode).flatten.length : Nat) : Int) := by
  intro frames
  induction frames with
  | nil =>
    intro s _ _
    refine ⟨0, s, Nat.le_refl _, ?_, by simp, by simp⟩
    by_cases h : s.addr < CHIP_SIZE
    · right; simp [read_loop, h]
    · left; exact ⟨read_loop_of_ge _ s h, by omega⟩
  | cons f fs ih =>
    intro s hfs hbuf
    have hf := hfs f (List.mem_cons_self f fs)
    by_cases h : s.addr < CHIP_SIZE
    · obtain ⟨s₁, hround, haddr, _, hbuf₁, hsink⟩ := read_round_even_sink f s hf.1 hf.2 hbuf
      obtain ⟨n, s', hn, hrun, hsink', haddr'⟩ := ih s₁
        (fun g hg => hfs g (List.mem_cons_of_mem f hg)) hbuf₁
      refine ⟨n + 1, s', by simpa using hn, ?_, ?_, ?_⟩
      · rw [List.map_cons, read_loop_cons_ok _ _ s s₁ h hround]
        rcases hrun with hrun | hrun
        · exact Or.inl hrun
        · exact Or.inr ⟨hrun.1, by rw [hrun.2]; rfl⟩
      · rw [hsink', hsink]
        simp
      · rw [haddr', haddr]
        simp only [List.take_succ_cons, List.map_cons, List.flatten_cons, List.length_append]
        push_cast
        omega
    · refine ⟨0, s, Nat.zero_le _, Or.inl ⟨read_loop_of_ge _ s h, by omega⟩, by simp, by simp⟩

/-- The final offset of a READ loop that ends is at most one chunk past
`CHIP_SIZE`. -/
theorem read_loop_done_bound : ∀ (frames : List (List Char)) (s s' : Session),
    (∀ f ∈ frames, f.length ≤ BUFFER_SIZE * 2 ∧ f.length % 2 = 0) →
    s.buf.length = BUFFER_SIZE →
    s.addr ≤ (CHIP_SIZE : Int) + BUFFER_SIZE - 1 →
    read_loop (frames.map Receive.frame) s = .done s' →
    (CHIP_SIZE : Int) ≤ s'.addr ∧ s'.addr ≤ (CHIP_SIZE : Int) + BUFFER_SIZE - 1 := by
  intro frames
  induction frames with
  | nil =>
    intro s s' _ _ hle hdone
    by_cases h : s.addr < CHIP_SIZE
    · simp [read_loop, h] at hdone
    · rw [read_loop_of_ge _ s h] at hdone
      cases hdone
      exact ⟨by omega, hle⟩
  | cons f fs ih =>
    intro s s' hfs hbuf hle hdone
    have hf := hfs f (List.mem_cons_self f fs)
    have hB : BUFFER_SIZE = 64 := rfl
    by_cases h : s.addr < CHIP_SIZE
    · obtain ⟨s₁, hround, haddr, hdec, hbuf₁, _⟩ := read_round_even_sink f s hf.1 hf.2 hbuf
      rw [List.map_cons, read_loop_cons_ok _ _ s s₁ h hround] at hdone
      refine ih s₁ s' (fun g hg => hfs g (List.mem_cons_of_mem f hg)) hbuf₁ ?_ hdone
      rw [haddr, hdec]
      have : f.length / 2 ≤ 64 := by omega
      have : ((f.length / 2 : Nat) : Int) ≤ 64 := by exact_mod_cast this
      rw [hB]
      push_cast
      omega
    · rw [read_loop_of_ge _ s h] at hdone
      cases hdone
      exact ⟨by omega, hle⟩

theorem foldl_fill_bin_step_drop (source : List Char) (m : Nat) : ∀ (k : Nat) (dest : List Nat),
    k ≤ 2 * m → ((List.range k).foldl (fill_bin_step source) dest).drop m = dest.drop m := by
  intro k
  induction k with
  | zero => intro dest _; rfl
  | succ k ih =>
    intro dest hk
    rw [List.range_succ, List.foldl_append, List.foldl_cons, List.foldl_nil]
    have hidx : k / 2 < m := by omega
    unfold fill_bin_step
    split
    · rw [List.drop_set_of_lt _ _ hidx]; exact ih dest (by omega)
    · rw [List.drop_set_of_lt _ _ hidx]; exact ih dest (by omega)

/-- The call `fill_bin_buffer(source, dest, count)` with `count <= 2 * m` leaves
every cell of `dest` from index `m` on as it was. -/
theorem fill_bin_buffer_drop (source : List Char) (dest : List Nat) (count : Int) (m : Nat)
    (h : count ≤ 2 * (m : Int)) : (fill_bin_buffer source dest count).drop m = dest.drop m := by
  unfold fill_bin_buffer
  exact foldl_fill_bin_step_drop source m _ dest (by omega)

theorem recvd_tdiv_nonneg (r : Receive) (count : Nat) : 0 ≤ (r.recvd count).tdiv 2 := by
  cases r with
  | error =>
    simp only [Receive.recvd]
    decide
  | frame chars =>
    simp only [Receive.recvd]
    rw [Int.tdiv_eq_ediv (by omega) (by omega)]
    omega

theorem read_round_ok_addr (r : Receive) (s s' : Session) (h : read_round r s = .ok s') :
    s'.addr = s.addr + (r.recvd (BUFFER_SIZE * 2)).tdiv 2 := by
  simp only [read_round] at h
  split at h
  · cases h
  · cases h
    rfl

theorem read_loop_addr_mono : ∀ (script : List Receive) (s : Session),
    s.addr ≤ (read_loop script s).session.addr := by
  intro script
  induction script with
  | nil =>
    intro s
    by_cases h : s.addr < CHIP_SIZE <;> simp [read_loop, h, Outcome.session]
  | cons r rest ih =>
    intro s
    by_cases h : s.addr < CHIP_SIZE
    · cases hr : read_round r s with
      | error e =>
        rw [read_loop_cons_error r rest s e h hr]
        exact le_of_eq (read_round_error_log r s e hr).2.1.symm
      | ok t =>
        rw [read_loop_cons_ok r rest s t h hr]
        have h1 := read_round_ok_addr r s t hr
        have h2 := recvd_tdiv_nonneg r (BUFFER_SIZE * 2)
        have h3 := ih t
        omega
    · rw [read_loop_of_ge _ s h]
      exact le_refl _

/-! ## Further claims on the read session -/

/-- C15 (read session sink content): for every sequence of even-length
frames (each of at most 128 characters), the READ loop processes a prefix
`f_1..f_n` of it, stopping before the others only once `addr >= CHIP_SIZE`;
the bytes it writes to the sink are `decode(f_1) ++ ... ++ decode(f_n)`, each
frame in full also when that passes `CHIP_SIZE`, and the offset has grown by
the number of those bytes, the sum of the `len(f_j) / 2`. -/
theorem read_loop_sink_content (frames : List (List Char)) (s : Session)
    (hframes : ∀ f ∈ frames, f.length ≤ BUFFER_SIZE * 2 ∧ f.length % 2 = 0)
    (hbuf : s.buf.length = BUFFER_SIZE) :
    ∃ (n : Nat) (s' : Session), n ≤ frames.length ∧
      (read_loop (frames.map Receive.frame) s = .done s' ∧ CHIP_SIZE ≤ s'.addr ∨
        read_loop (frames.map Receive.frame) s = .blocked s' ∧ n = frames.length) ∧
      sink_bytes s'.log = sink_bytes s.log ++ ((frames.take n).map decode).flatten ∧
      s'.addr = s.addr + ((((frames.take n).map decode).flatten.length : Nat) : Int) ∧
      ((frames.take n).map decode).flatten.length
        = ((frames.take n).map (fun f => f.length / 2)).sum := by
  obtain ⟨n, s', hn, hrun, hsink, haddr⟩ := read_loop_frames_run frames s hframes hbuf
  refine ⟨n, s', hn, hrun, hsink, haddr, ?_⟩
  rw [List.length_flatten, List.map_map]
  congr 1
  apply List.map_congr_left
  intro f hf
  have hf' := hframes f (List.mem_of_mem_take hf)
  exact decode_length (f.length / 2) f (by omega)

/-- Witness of C15: the frames `"0A1B"` and `"FF"`. -/
theorem read_loop_sink_content_witness :
    ∃ (n : Nat) (s' : Session), n ≤ [['0', 'A', '1', 'B'], ['F', 'F']].length ∧
      (read_loop ([['0', 'A', '1', 'B'], ['F', 'F']].map Receive.frame)
          { addr := 0, buf := List.replicate 64 0, ascii_buf := List.replicate 128 'x',
            log := [] } = .done s' ∧ CHIP_SIZE ≤ s'.addr ∨
        read_loop ([['0', 'A', '1', 'B'], ['F', 'F']].map Receive.frame)
          { addr := 0, buf := List.replicate 64 0, ascii_buf := List.replicate 128 'x',
            log := [] } = .blocked s' ∧ n = [['0', 'A', '1', 'B'], ['F', 'F']].length) ∧
      sink_bytes s'.log = sink_bytes [] ++
        (([['0', 'A', '1', 'B'], ['F', 'F']].take n).map decode).flatten ∧
      s'.addr = 0 + (((([['0', 'A', '1', 'B'], ['F', 'F']].take n).map decode).flatten.length
        : Nat) : Int) ∧
      (([['0', 'A', '1', 'B'], ['F', 'F']].take n).map decode).flatten.length
        = (([['0', 'A', '1', 'B'], ['F', 'F']].take n).map (fun f => f.length / 2)).sum :=
  read_loop_sink_content [['0', 'A', '1', 'B'], ['F', 'F']]
    { addr := 0, buf := List.replicate 64 0, ascii_buf := List.replicate 128 'x', log := [] }
    (by decide) (List.length_replicate 64 0)

/-- C16 (read session progress): in every round, whatever the `read` returns
(a length, 0, or the error value -1), the offset after the round is the offset
before plus `recvd / 2` (C division) and is not smaller than before; a round
that ends in `exit(1)` leaves it as it was; and over any script the offset at
the end of the loop is not smaller than at its start. -/
theorem read_offset_monotone (r : Receive) (s : Session) :
    (∀ s', read_round r s = .ok s' →
      s'.addr = s.addr + (r.recvd (BUFFER_SIZE * 2)).tdiv 2 ∧ s.addr ≤ s'.addr) ∧
    (∀ s', read_round r s = .error s' → s'.addr = s.addr) ∧
    (∀ script : List Receive, s.addr ≤ (read_loop script s).session.addr) := by
  refine ⟨?_, ?_, fun script => read_loop_addr_mono script s⟩
  · intro s' h
    have h1 := read_round_ok_addr r s s' h
    have h2 := recvd_tdiv_nonneg r (BUFFER_SIZE * 2)
    exact ⟨h1, by omega⟩
  · intro s' h
    exact (read_round_error_log r s s' h).2.1

/-- Witness of C16: a failed `read`, then two frames, from offset 5. -/
theorem read_offset_monotone_witness :
    (5 : Int) ≤ (read_loop [Receive.error, Receive.frame ['0', 'A'], Receive.frame []]
      { addr := 5, buf := [0, 0], ascii_buf := ['x', 'x'], log := [] }).session.addr :=
  (read_offset_monotone Receive.error
    { addr := 5, buf := [0, 0], ascii_buf := ['x', 'x'], log := [] }).2.2
    [Receive.error, Receive.frame ['0', 'A'], Receive.frame []]

/-- C18 (read session overshoot bound): for every sequence of frames of even
length at most 128, if the READ loop started at offset 0 ends by its loop
condition, the final offset, which is the number of bytes written, is at least
`CHIP_SIZE` and at most `CHIP_SIZE + BUFFER_SIZE - 1 = 32831`; and decoding any
of these frames leaves every cell from index 64 on as it was, whatever lies
there: the decoder writes to indices 0..63 only. -/
theorem read_loop_overshoot_bound (frames : List (List Char)) (s s' : Session)
    (hframes : ∀ f ∈ frames, f.length ≤ BUFFER_SIZE * 2 ∧ f.length % 2 = 0)
    (haddr : s.addr = 0) (hbuf : s.buf.length = BUFFER_SIZE)
    (hdone : read_loop (frames.map Receive.frame) s = .done s') :
    (CHIP_SIZE : Int) ≤ s'.addr ∧ s'.addr ≤ (CHIP_SIZE : Int) + BUFFER_SIZE - 1 ∧
    (CHIP_SIZE : Int) + BUFFER_SIZE - 1 = 32831 ∧
    ((sink_bytes s'.log).length : Int) = (sink_bytes s.log).length + s'.addr ∧
    (∀ f ∈ frames, ∀ (ascii_buf : List Char) (memory : List Nat),
      (fill_bin_buffer (store f ascii_buf) memory (f.length : Nat)).drop BUFFER_SIZE
        = memory.drop BUFFER_SIZE) := by
  have hbound := read_loop_done_bound frames s s' hframes hbuf (by rw [haddr]; decide) hdone
  refine ⟨hbound.1, hbound.2, by decide, ?_, ?_⟩
  · obtain ⟨n, t, _, hrun, hsink, haddr'⟩ := read_loop_frames_run frames s hframes hbuf
    have ht : t = s' := by
      rcases hrun with hrun | hrun
      · rw [hdone] at hrun; cases hrun.1; rfl
      · rw [hdone] at hrun; cases hrun.1
    subst ht
    rw [hsink, List.length_append, haddr', haddr]
    push_cast
    omega
  · intro f hf ascii_buf memory
    have hf' := (hframes f hf).1
    exact fill_bin_buffer_drop _ memory _ BUFFER_SIZE (by
      have hB : BUFFER_SIZE = 64 := rfl
      have : f.length ≤ 2 * BUFFER_SIZE := by omega
      exact_mod_cast this)

/-- C19 (failed receive in the read session): when `read` returns -1 the test
`recvd % 2 == 1` is false (`-1 % 2` is `-1` in C), so the round does not exit:
it leaves `buf`, `ascii_buf` and the offset as they were, hands zero bytes to the
sink, and the loop goes on to the next `read`. -/
theorem read_round_receive_error (s : Session) (rest : List Receive)
    (hs : s.addr < CHIP_SIZE) :
    (-1 : Int).tmod 2 = -1 ∧
    read_round Receive.error s
      = .ok { s with log := s.log ++ [.com_read (-1), .file_write []] } ∧
    read_loop (Receive.error :: rest) s
      = read_loop rest { s with log := s.log ++ [.com_read (-1), .file_write []] } := by
  have hround : read_round Receive.error s
      = .ok { s with log := s.log ++ [.com_read (-1), .file_write []] } := by
    have h1 : ¬ ((-1 : Int).tmod 2 = 1) := by decide
    have h2 : Int.tdiv 1 2 = 0 := by decide
    simp [read_round, Receive.recvd, Receive.chars, store, fill_bin_buffer, h1, h2]
  exact ⟨by decide, hround, read_loop_cons_ok _ rest s _ hs hround⟩

/-- Witness of C19: a failed `read` followed by an odd frame, which is then
the one that ends the run. -/
theorem read_round_receive_error_witness :
    read_loop (Receive.error :: [Receive.frame ['1']])
        { addr := 0, buf := [7], ascii_buf := ['x', 'x'], log := [] }
      = read_loop [Receive.frame ['1']]
        { addr := 0, buf := [7], ascii_buf := ['x', 'x'],
          log := [] ++ [.com_read (-1), .file_write []] } :=
  (read_round_receive_error { addr := 0, buf := [7], ascii_buf := ['x', 'x'], log := [] }
    [Receive.frame ['1']] (by decide)).2.2

/-- Witness of C18: 512 full frames of 128 characters. -/
theorem read_loop_overshoot_bound_witness :
    ∃ s', read_loop ((List.replicate 512 (List.replicate 128 'A')).map Receive.frame)
        { addr := 0, buf := List.replicate 64 0, ascii_buf := List.replicate 128 'x', log := [] }
        = .done s' ∧
      (CHIP_SIZE : Int) ≤ s'.addr ∧ s'.addr ≤ (CHIP_SIZE : Int) + BUFFER_SIZE - 1 := by
  have hframes : ∀ f ∈ List.replicate 512 (List.replicate 128 'A'),
      f.length ≤ BUFFER_SIZE * 2 ∧ f.length % 2 = 0 := by
    intro f hf
    rw [List.eq_of_mem_replicate hf]
    exact ⟨by rw [List.length_replicate]; decide, by rw [List.length_replicate]⟩
  obtain ⟨s', hrun, _, _⟩ := read_loop_exact_sum (List.replicate 512 (List.replicate 128 'A'))
    { addr := 0, buf := List.replicate 64 0, ascii_buf := List.replicate 128 'x', log := [] }
    hframes
    (by
      rw [List.map_replicate, List.sum_replicate, List.length_replicate]
      rfl)
    (List.length_replicate 64 0)
  have h := read_loop_overshoot_bound (List.replicate 512 (List.replicate 128 'A'))
    { addr := 0, buf := List.replicate 64 0, ascii_buf := List.replicate 128 'x', log := [] }
    s' hframes rfl (List.length_replicate 64 0) hrun
  exact ⟨s', hrun, h.1, h.2.1⟩

/-! ## Lemmas on the inverse round trip -/

theorem hex_digit_ascii_to_nibble (c : Char) (h : is_hex_digit c) :
    hex_digit (ascii_to_nibble c) = c := by
  have hc : c = Char.ofNat c.toNat := (Char.ofNat_toNat c).symm
  have hrange : (48 ≤ c.toNat ∧ c.toNat ≤ 57) ∨ (65 ≤ c.toNat ∧ c.toNat ≤ 70) := by
    unfold is_hex_digit at h
    simp only [Char.le_def, Char.toNat] at h ⊢
    rcases h with ⟨h1, h2⟩ | ⟨h1, h2⟩
    · left; exact ⟨h1, h2⟩
    · right; exact ⟨h1, h2⟩
  generalize c.toNat = n at hc hrange
  subst hc
  rcases hrange with ⟨h1, h2⟩ | ⟨h1, h2⟩ <;> interval_cases n <;> rfl


theorem encode_decode (n : Nat) : ∀ (f : List Char), f.length = 2 * n →
    (∀ c ∈ f, is_hex_digit c) → encode (decode f) = f := by
  induction n with
  | zero =>
    intro f h _
    have : f = [] := List.length_eq_zero.mp (by omega)
    subst this
    rfl
  | succ n ih =>
    intro f h hhex
    match f, h, hhex with
    | hi :: lo :: rest, h, hhex =>
      have hrest : rest.length = 2 * n := by
        simp only [List.length_cons] at h; omega
      have hhi := hex_digit_ascii_to_nibble hi (hhex hi (by simp))
      have hlo := hex_digit_ascii_to_nibble lo (hhex lo (by simp))
      have hl := ascii_to_nibble_le lo
      have e1 : (16 * ascii_to_nibble hi + ascii_to_nibble lo) / 16 = ascii_to_nibble hi := by
        omega
      have e2 : (16 * ascii_to_nibble hi + ascii_to_nibble lo) % 16 = ascii_to_nibble lo := by
        omega
      simp only [decode, encode, e1, e2, hhi, hlo,
        ih rest hrest (fun c hc => hhex c (by simp [hc]))]

theorem decode_bytes (n : Nat) : ∀ (f : List Char), f.length = 2 * n →
    ∀ x ∈ decode f, x < 256 := by
  induction n with
  | zero =>
    intro f h x hx
    have : f = [] := List.length_eq_zero.mp (by omega)
    subst this
    simp [decode] at hx
  | succ n ih =>
    intro f h x hx
    match f, h, hx with
    | hi :: lo :: rest, h, hx =>
      have hrest : rest.length = 2 * n := by
        simp only [List.length_cons] at h; omega
      have hh := ascii_to_nibble_le hi
      have hl := ascii_to_nibble_le lo
      simp only [decode, List.mem_cons] at hx
      rcases hx with rfl | hx
      · omega
      · exact ih rest hrest x hx

/-! ## Claim on the inverse round trip -/

/-- C17 (inverse round trip): for every even-length frame `f` (of at most 128
characters) whose characters are all in `'0'..'9'`, `'A'..'F'`, decoding `f`
into the chunk buffer and encoding that buffer over the same number of bytes
gives back `f`; for the frame `"0a"`, whose second character is a lowercase
digit, it gives `"00"`, which is not `"0a"`. -/
theorem encode_decode_round_trip (f : List Char) (n : Nat) (buf : List Nat)
    (ascii_buf : List Char) (hf : f.length = 2 * n) (hn : n ≤ BUFFER_SIZE)
    (hhex : ∀ c ∈ f, is_hex_digit c) (hbuf : buf.length = BUFFER_SIZE)
    (hbytes : ∀ x ∈ buf, x < 256) (hascii : ascii_buf.length = BUFFER_SIZE * 2) :
    (fill_ascii_buffer (fill_bin_buffer f buf (2 * n : Nat)) ascii_buf (n : Nat)).take (2 * n)
      = f ∧
    ((fill_ascii_buffer (fill_bin_buffer ['0', 'a'] buf 2) ascii_buf 1).take 2 = ['0', '0'] ∧
      ['0', '0'] ≠ ['0', 'a'] ∧ ¬ is_hex_digit 'a' ∧ ['0', 'a'].length % 2 = 0) := by
  have hB : BUFFER_SIZE = 64 := rfl
  have general : ∀ (g : List Char) (m : Nat), g.length = 2 * m → m ≤ BUFFER_SIZE →
      (fill_ascii_buffer (fill_bin_buffer g buf (2 * m : Nat)) ascii_buf (m : Nat)).take (2 * m)
        = encode (decode g) := by
    intro g m hg hm
    have hdec : (decode g).length = m := decode_length m g hg
    have hfull : g.take (2 * m) = g := by rw [← hg, List.take_length]
    rw [fill_bin_buffer_eq g buf m (by omega) (by omega), hfull]
    have hsrc : ∀ x ∈ decode g ++ buf.drop m, x < 256 := by
      intro x hx
      rcases List.mem_append.mp hx with hx | hx
      · exact decode_bytes m g hg x hx
      · exact hbytes x (List.mem_of_mem_drop hx)
    rw [fill_ascii_buffer_eq _ ascii_buf m hsrc
      (by rw [List.length_append, hdec]; omega) (by omega),
      List.take_left' hdec]
    exact List.take_left' (by rw [encode_length, hdec])
  refine ⟨?_, ?_, by decide, by decide, by decide⟩
  · rw [general f n hf hn, encode_decode n f hf hhex]
  · have h := general ['0', 'a'] 1 rfl (by omega)
    exact h

/-- Witness of C17: the frame `"00FF1A"`. -/
theorem encode_decode_round_trip_witness :
    (fill_ascii_buffer (fill_bin_buffer ['0', '0', 'F', 'F', '1', 'A'] (List.replicate 64 0)
      (2 * 3 : Nat)) (List.replicate 128 'x') (3 : Nat)).take (2 * 3)
      = ['0', '0', 'F', 'F', '1', 'A'] :=
  (encode_decode_round_trip ['0', '0', 'F', 'F', '1', 'A'] 3 (List.replicate 64 0)
    (List.replicate 128 'x') rfl (by decide) (by decide) (List.length_replicate 64 0)
    (fun x hx => by rw [List.eq_of_mem_replicate hx]; decide)
    (List.length_replicate 128 'x')).1

/-! ## Claim on short source reads -/

/-- C20 (short source read in the write session): in a round, from any session
state left by the rounds before, if the source yields only `k < 64` bytes at the
device-supplied address, a full frame of 128 characters is still handed to the
serial line: its first `2 * k` characters encode the `k` bytes just read and its
other `128 - 2 * k` characters encode the bytes at positions `k..63` of the
chunk buffer as the round found it; when the address is at or past the end of
the data (`k = 0`), the whole frame encodes the chunk buffer as it was. -/
theorem write_round_short_read (file : List Nat) (a : Nat) (sent : Int) (s : Session) (k : Nat)
    (hfile : ∀ x ∈ file, x < 256) (hs : s.buffers_ok) (ha : a < 2 ^ 16)
    (hk : (file_read file a BUFFER_SIZE).length = k) (hshort : k < BUFFER_SIZE) :
    ∃ frame, (write_round file { recvd_addr := a, sent := sent } s).log
        = s.log ++ [.com_read_addr a, .file_seek a, .file_read (file_read file a BUFFER_SIZE),
            .com_write frame sent] ∧
      frame.length = 128 ∧
      frame.take (2 * k) = encode (file_read file a BUFFER_SIZE) ∧
      frame.drop (2 * k) = encode (s.buf.drop k) ∧
      (encode (s.buf.drop k)).length = 128 - 2 * k ∧
      (file.length ≤ a → k = 0 ∧ frame = encode s.buf) := by
  have hB : BUFFER_SIZE = 64 := rfl
  have hbytes := store_file_read_bytes file a s hfile hs
  obtain ⟨_, _, _, _, hl⟩ := write_round_effect file a sent s ha hs.1 hs.2.1 hbytes
  have hsplit : encode (store (file_read file a BUFFER_SIZE) s.buf)
      = encode (file_read file a BUFFER_SIZE) ++ encode (s.buf.drop k) := by
    unfold store
    rw [encode_append, hk]
  have hlen1 : (encode (file_read file a BUFFER_SIZE)).length = 2 * k := by
    rw [encode_length, hk]
  have hlen2 : (encode (s.buf.drop k)).length = 128 - 2 * k := by
    rw [encode_length, List.length_drop, hs.1]
    omega
  refine ⟨encode (store (file_read file a BUFFER_SIZE) s.buf), hl, ?_, ?_, ?_, hlen2, ?_⟩
  · rw [hsplit, List.length_append, hlen1, hlen2]
    omega
  · rw [hsplit]
    exact List.take_left' hlen1
  · rw [hsplit]
    exact List.drop_left' hlen1
  · intro hpast
    have hempty : file_read file a BUFFER_SIZE = [] := by
      unfold file_read
      rw [List.drop_of_length_le hpast]
      rfl
    have hk0 : k = 0 := by rw [← hk, hempty]; rfl
    refine ⟨hk0, ?_⟩
    rw [hempty]
    rfl

/-- Witness of C20: a source of 70 bytes `0x11` asked for address 64 after a
round that left 64 bytes `0xEE` in the chunk buffer: the frame is 12
characters `1` followed by 116 characters `E`. -/
theorem write_round_short_read_witness :
    ∃ frame, (write_round (List.replicate 70 0x11) { recvd_addr := 64, sent := 128 }
          { addr := 0, buf := List.replicate 64 0xEE, ascii_buf := List.replicate 128 'x',
            log := [] }).log
        = [] ++ [.com_read_addr 64, .file_seek (64 : Nat),
            .file_read (file_read (List.replicate 70 0x11) 64 BUFFER_SIZE),
            .com_write frame 128] ∧
      frame.length = 128 ∧
      frame.take (2 * 6) = encode (file_read (List.replicate 70 0x11) 64 BUFFER_SIZE) ∧
      frame.drop (2 * 6) = encode ((List.replicate 64 0xEE).drop 6) ∧
      (encode ((List.replicate 64 0xEE).drop 6)).length = 128 - 2 * 6 ∧
      ((List.replicate 70 0x11).length ≤ 64 →
        6 = 0 ∧ frame = encode (List.replicate 64 0xEE)) :=
  write_round_short_read (List.replicate 70 0x11) 64 128
    { addr := 0, buf := List.replicate 64 0xEE, ascii_buf := List.replicate 128 'x', log := [] }
    6 (fun x hx => by rw [List.eq_of_mem_replicate hx]; decide)
    ⟨List.length_replicate 64 0xEE, List.length_replicate 128 'x',
      fun x hx => by rw [List.eq_of_mem_replicate hx]; decide⟩
    (by decide) (by decide) (by decide)

end EepromBurner
